import Mathlib

/-!
# quai-helper: terminus resolution and bad-hash propagation

A shallow embedding of `main.go`: the backward walk `GenerateTermini`, the
hierarchy-wide propagation performed by `main`, and the client pool built by
`connectToSlice`.

* `common.Hash` is a 256-bit value; it is embedded as a natural number and the
  zero value `common.Hash{}` is `0`.
* Go `int` arguments (`ctx`, `index`) are integers.
* The RPC client is an external collaborator: a client is a pair of lookup
  functions.  A lookup that yields no header (`nil`) is `none`; using such a
  header, indexing a slice out of range, or calling through a `nil` client is
  a run-time panic, embedded as `Outcome.crash`.
* The `for` loop of `GenerateTermini` has no bound; it is embedded with a fuel
  argument, `Outcome.timeout` meaning that the fuel did not suffice.
* Every lookup by hash is recorded, in order, in a list of the hashes asked for.
* `quaiclient.Dial` is an external collaborator too: the outcome of the `k`-th call is
  given by a function of `k` and the URL, and every call is recorded, in order.
-/

namespace QuaiHelper

/-! ## Data model -/

/-- A `common.Hash`: a 256-bit value; `0` is `common.Hash{}`. -/
abbrev common.Hash := Nat

/-- Modelled from the spec: `common.PRIME_CTX`, the Top level, a constant of go-quai;
`main` passes the literal `0` for it. -/
def common.PRIME_CTX : Int := 0

/-- Modelled from the spec: `common.REGION_CTX`, the Region level, a constant of go-quai;
`main` passes the literal `1` for it. -/
def common.REGION_CTX : Int := 1

/-- Modelled from the spec: `common.ZONE_CTX`, the Zone level, a constant of go-quai. -/
def common.ZONE_CTX : Int := 2

/-- Modelled from the spec: `common.HierarchyDepth`, the branching factor R, fixed at 3. -/
def common.HierarchyDepth : Nat := 3

/-- The value of `common.HexToHash("0x4c35...a3d4")`. -/
def GenesisHash : common.Hash :=
  0x4c35b1216decc6aa2431fa2d2a1c68f15d70f83a309041ed1bfef5ad6592a3d4

/-- The view of a `*types.Header` that `main.go` consumes: `Hash()`, `ParentHash(ctx)`,
`NumberU64(ctx)` (a `uint64`, so a number below `2 ^ 64`) and `Location()` (a byte slice,
indexed by level). -/
structure Header where
  Hash : common.Hash
  ParentHash : Int → common.Hash
  NumberU64 : Int → Nat
  Location : List Nat

/-- A `*quaiclient.Client`: the two lookups `main.go` performs on it. `none` is the `nil`
header. -/
structure QuaiClient where
  HeaderByHash : common.Hash → Option Header
  HeaderByNumber : String → Option Header

/-- The struct `NodeClient`; a `nil` client pointer is `none`. -/
structure NodeClient where
  Client : Option QuaiClient
  Connected : Bool

/-- The struct `SliceClients`. -/
structure SliceClients where
  PrimeClient : NodeClient
  RegionClients : List NodeClient
  ZoneClients : List (List NodeClient)

/-- How a run ends: it returns a value, it panics, or the fuel ran out. -/
inductive Outcome (α : Type) where
  | done (a : α)
  | crash
  | timeout
  deriving DecidableEq

/-- A run of `GenerateTermini`: how it ended, and the hashes looked up, in order. -/
structure Run where
  result : Outcome (List common.Hash)
  lookups : List common.Hash

/-- Go slice indexing `xs[i]` with an `int` index; `none` is the out-of-range panic. -/
def sliceAt {α : Type} (xs : List α) (i : Int) : Option α :=
  if i < 0 then none else xs[i.toNat]?

/-! ## GenerateTermini -/

/-- The closure `isTerminiFull` (lines 117-125): count the non-zero entries, compare
with 4. -/
def isTerminiFull (termini : List common.Hash) : Bool :=
  termini.foldl (fun count t => if t ≠ 0 then count + 1 else count) 0 == 4

/-- The genesis fill (lines 138-142): every zero entry becomes `GenesisHash`. -/
def fillGenesis (termini : List common.Hash) : List common.Hash :=
  termini.map (fun t => if t = 0 then GenesisHash else t)

/-- The variables of the loop at lines 133-150, at the head of an iteration. -/
structure LoopState where
  termini : List common.Hash
  parent : Header
  lookups : List common.Hash

/-- What one iteration of the loop does. -/
inductive Iter where
  | exit (termini : List common.Hash)
  | next (s : LoopState)
  | fault (lookups : List common.Hash)

/-- One iteration of the loop at lines 133-150. -/
def loopBody (client : QuaiClient) (ctx : Int) (s : LoopState) : Iter :=
  if isTerminiFull s.termini then .exit s.termini
  else if s.parent.Hash = GenesisHash then .exit (fillGenesis s.termini)
  else
    let asked := s.lookups ++ [s.parent.ParentHash ctx]
    match client.HeaderByHash (s.parent.ParentHash ctx) with
    | none => .fault asked
    | some header =>
      match sliceAt header.Location ctx with
      | none => .fault asked
      | some loc =>
        match s.termini[loc]? with
        | none => .fault asked
        | some t =>
          .next ⟨if t = 0 then s.termini.set loc header.Hash else s.termini, header, asked⟩

/-- The loop at lines 133-150, run for at most `fuel` iterations. -/
def loop (client : QuaiClient) (ctx : Int) : Nat → LoopState → Run
  | 0, s => ⟨.timeout, s.lookups⟩
  | fuel + 1, s =>
    match loopBody client ctx s with
    | .exit termini => ⟨.done termini, s.lookups⟩
    | .next s1 => loop client ctx fuel s1
    | .fault asked => ⟨.crash, asked⟩

/-- The client selection at lines 110-115. The outer `none` is the panic of
`sc.RegionClients[index]`; the inner `none` is a `nil` client. -/
def selectClient (sc : SliceClients) (ctx index : Int) : Option (Option QuaiClient) :=
  if ctx = common.PRIME_CTX then some sc.PrimeClient.Client
  else if ctx = common.REGION_CTX then (sliceAt sc.RegionClients index).map (fun n => n.Client)
  else some none

/-- Lines 108 and 128-132: the vector is made, slot 3 is set to the reference hash, the
reference header is fetched and the slot at its location is set to the reference hash.
`none` is a panic (a `nil` header, or an index out of range). -/
def enterLoop (client : QuaiClient) (ctx : Int) (hash : common.Hash) : Option LoopState :=
  let termini : List common.Hash := (List.replicate 4 0).set 3 hash
  match client.HeaderByHash hash with
  | none => none
  | some header =>
    match sliceAt header.Location ctx with
    | none => none
    | some loc =>
      if loc < termini.length then some ⟨termini.set loc hash, header, [hash]⟩ else none

/-- The function `GenerateTermini` (lines 107-153), its loop run for at most `fuel`
iterations. -/
def GenerateTermini (fuel : Nat) (sc : SliceClients) (ctx index : Int) (hash : common.Hash) :
    Run :=
  match selectClient sc ctx index with
  | none => ⟨.crash, []⟩
  | some client =>
    if ctx = common.PRIME_CTX ∨ ctx = common.REGION_CTX then
      match client with
      | none => ⟨.crash, []⟩
      | some client =>
        match enterLoop client ctx hash with
        | none => ⟨.crash, [hash]⟩
        | some s => loop client ctx fuel s
    else ⟨.done ((List.replicate 4 0).set 3 hash), []⟩

/-- The loop variables after `k` continuing iterations from the state `s`, if the loop
continued that often. -/
def stateAfter (client : QuaiClient) (ctx : Int) : Nat → LoopState → Option LoopState
  | 0, s => some s
  | k + 1, s =>
    match loopBody client ctx s with
    | .next s1 => stateAfter client ctx k s1
    | _ => none

/-- The loop variables of a call of `GenerateTermini` at the head of iteration `k`. -/
def walkState (client : QuaiClient) (ctx : Int) (hash : common.Hash) (k : Nat) :
    Option LoopState :=
  (enterLoop client ctx hash).bind (stateAfter client ctx k)

/-- The headers of the level-specific ancestor chain: the header of the reference hash,
then repeatedly the header at `ParentHash(ctx)`. -/
def chainAt (client : QuaiClient) (ctx : Int) (hash : common.Hash) : Nat → Option Header
  | 0 => client.HeaderByHash hash
  | k + 1 => (chainAt client ctx hash k).bind (fun h => client.HeaderByHash (h.ParentHash ctx))

/-! ## The propagation in main -/

/-- The text `fmt.Sprintf("%x", n)` of a `uint64`: lower-case hexadecimal digits. -/
def sprintfHex (n : Nat) : List Char := Nat.toDigits 16 n

/-- The height argument of `HeaderByNumber` at lines 88 and 98, for the terminus number
`n`: `"0x" + strings.ToUpper(fmt.Sprintf("%x", n + 1))`, the sum taken in `uint64`. -/
def heightArg (n : Nat) : String :=
  "0x" ++ String.mk ((sprintfHex ((n + 1) % 2 ^ 64)).map Char.toUpper)

/-- The hash `client.HeaderByNumber(heightArg(header.NumberU64(ctx))).Hash()` where
`header = client.HeaderByHash(terminus)` (lines 87-88 and 97-98); a `nil` client or a
`nil` header is a panic. -/
def nextHash (node : NodeClient) (ctx : Int) (terminus : common.Hash) : Option common.Hash :=
  match node.Client with
  | none => none
  | some client =>
    match client.HeaderByHash terminus with
    | none => none
    | some header =>
      (client.HeaderByNumber (heightArg (header.NumberU64 ctx))).map (fun h => h.Hash)

/-- Sequencing of runs: the first panic or timeout ends the run. -/
def Outcome.bind {α β : Type} (x : Outcome α) (f : α → Outcome β) : Outcome β :=
  match x with
  | .done a => f a
  | .crash => .crash
  | .timeout => .timeout

/-- A `nil` result used, or a slice index out of range: a panic. -/
def orCrash {α : Type} (x : Option α) : Outcome α :=
  match x with
  | some a => .done a
  | none => .crash

/-- The body `f` run for each index of `is` in order, the results collected. -/
def collect {α : Type} (f : Nat → Outcome α) : List Nat → Outcome (List α)
  | [] => .done []
  | i :: is => (f i).bind (fun a => (collect f is).bind (fun as => .done (a :: as)))

/-- A loop `for i := 0; i < n; i++` that fills slot `i` of a fresh slice with `f i`. -/
def forRange {α : Type} (n : Nat) (f : Nat → Outcome α) : Outcome (List α) :=
  collect f (List.range n)

/-- The vectors `primeTermini` and `regionTermini` of `main` (lines 77-83).
`primeBadHeader.ParentHash()` has no argument: go-quai then takes the level of
`common.NodeLocation`, which this program never sets, so it is the Top level. -/
def mainTermini (fuel : Nat) (sc : SliceClients) (primeBadHash : common.Hash) :
    Outcome (List common.Hash × List (List common.Hash)) :=
  (orCrash sc.PrimeClient.Client).bind fun prime =>
  (orCrash (prime.HeaderByHash primeBadHash)).bind fun primeBadHeader =>
  (GenerateTermini fuel sc 0 0 (primeBadHeader.ParentHash common.PRIME_CTX)).result.bind
    fun primeTermini =>
  (forRange common.HierarchyDepth fun i =>
    (orCrash primeTermini[i]?).bind fun t => (GenerateTermini fuel sc 1 i t).result).bind
    fun regionTermini =>
  .done (primeTermini, regionTermini)

/-- The slice `regionBadHashes` of `main` (lines 85-89). -/
def mainRegionBadHashes (sc : SliceClients) (primeTermini : List common.Hash) :
    Outcome (List common.Hash) :=
  forRange common.HierarchyDepth fun i =>
    (orCrash sc.RegionClients[i]?).bind fun node =>
    (orCrash primeTermini[i]?).bind fun t =>
    orCrash (nextHash node common.REGION_CTX t)

/-- The slices `zoneBadHashes` of `main` (lines 91-100). -/
def mainZoneBadHashes (sc : SliceClients) (regionTermini : List (List common.Hash)) :
    Outcome (List (List common.Hash)) :=
  forRange common.HierarchyDepth fun i =>
    forRange common.HierarchyDepth fun j =>
      (orCrash sc.ZoneClients[i]?).bind fun row =>
      (orCrash row[j]?).bind fun node =>
      (orCrash regionTermini[i]?).bind fun ts =>
      (orCrash ts[j]?).bind fun t =>
      orCrash (nextHash node common.ZONE_CTX t)

/-- The propagation in `main` (lines 77-100): the arguments `regionBadHashes` and
`zoneBadHashes` of `printBadHashes`. -/
def propagate (fuel : Nat) (sc : SliceClients) (primeBadHash : common.Hash) :
    Outcome (List common.Hash × List (List common.Hash)) :=
  (mainTermini fuel sc primeBadHash).bind fun termini =>
  (mainRegionBadHashes sc termini.1).bind fun regionBadHashes =>
  (mainZoneBadHashes sc termini.2).bind fun zoneBadHashes =>
  .done (regionBadHashes, zoneBadHashes)

/-! ## Concrete header stores -/

/-- A header with the same parent hash and number at every level. -/
def mkHeader (hash parent : common.Hash) (number : Nat) (location : List Nat) : Header :=
  ⟨hash, fun _ => parent, fun _ => number, location⟩

/-- A chain of six blocks ending at genesis: block 0 is genesis, block `k` has hash `k`
for `k = 1..5`; blocks 4 and 5 lie on region branch 1, block 2 on branch 2, the others
on branch 0. -/
def sixBlocks : List Header :=
  [mkHeader GenesisHash 0 0 [0, 0], mkHeader 1 GenesisHash 1 [0, 0], mkHeader 2 1 2 [2, 0],
   mkHeader 3 2 3 [0, 0], mkHeader 4 3 4 [1, 0], mkHeader 5 4 5 [1, 0]]

/-- The store of the six blocks, by hash and by height. -/
def sixClient : QuaiClient where
  HeaderByHash h := sixBlocks.find? (fun b => b.Hash == h)
  HeaderByNumber s := sixBlocks.find? (fun b => "0x" ++ String.mk ((sprintfHex (b.NumberU64 0)).map Char.toUpper) == s)

/-- A client tree in which every endpoint serves the six blocks. -/
def sixTree : SliceClients where
  PrimeClient := ⟨some sixClient, true⟩
  RegionClients := List.replicate 3 ⟨some sixClient, true⟩
  ZoneClients := List.replicate 3 (List.replicate 3 ⟨some sixClient, true⟩)

/-- The store of a header with the zero hash whose parent is genesis. -/
def zeroClient : QuaiClient where
  HeaderByHash h :=
    if h = 0 then some (mkHeader 0 GenesisHash 1 [0, 0])
    else if h = GenesisHash then some (mkHeader GenesisHash 0 0 [0, 0])
    else none
  HeaderByNumber _ := none

/-- A client tree whose Top endpoint serves `zeroClient`. -/
def zeroTree : SliceClients where
  PrimeClient := ⟨some zeroClient, true⟩
  RegionClients := List.replicate 3 ⟨none, false⟩
  ZoneClients := List.replicate 3 (List.replicate 3 ⟨none, false⟩)

/-- A store with a header at the zero hash in the middle of the chain 1, 0, 2, genesis. -/
def holeClient : QuaiClient where
  HeaderByHash h :=
    if h = 1 then some (mkHeader 1 0 3 [0, 0])
    else if h = 0 then some (mkHeader 0 2 2 [1, 0])
    else if h = 2 then some (mkHeader 2 GenesisHash 1 [1, 0])
    else if h = GenesisHash then some (mkHeader GenesisHash 0 0 [2, 0])
    else none
  HeaderByNumber _ := none

/-- A client tree whose Top endpoint serves `holeClient`. -/
def holeTree : SliceClients where
  PrimeClient := ⟨some holeClient, true⟩
  RegionClients := List.replicate 3 ⟨none, false⟩
  ZoneClients := List.replicate 3 (List.replicate 3 ⟨none, false⟩)

/-- What is compared of a header: its hash and its location index at a level. -/
def Header.view (ctx : Int) (h : Header) : common.Hash × Option Nat :=
  (h.Hash, sliceAt h.Location ctx)

/-- A store with a cycle: the header of hash 1 is its own parent. -/
def cycleClient : QuaiClient where
  HeaderByHash h := if h = 1 then some (mkHeader 1 1 7 [0, 0]) else none
  HeaderByNumber _ := none

/-- A client tree whose Top endpoint serves `cycleClient`. -/
def cycleTree : SliceClients where
  PrimeClient := ⟨some cycleClient, true⟩
  RegionClients := List.replicate 3 ⟨none, false⟩
  ZoneClients := List.replicate 3 (List.replicate 3 ⟨none, false⟩)

/-! ## The client pool -/

/-- The struct `Config`. -/
structure Config where
  PrimeURL : String
  RegionURLs : List String
  ZoneURLs : List (List String)

/-- The function `NewSliceClients` (lines 28-36): every entry is the zero value, a `nil`
client that is not connected. -/
def NewSliceClients : SliceClients where
  PrimeClient := ⟨none, false⟩
  RegionClients := List.replicate common.HierarchyDepth ⟨none, false⟩
  ZoneClients :=
    List.replicate common.HierarchyDepth (List.replicate common.HierarchyDepth ⟨none, false⟩)

/-- Go `a && b`: `b` is not evaluated when `a` is false; `none` is a panic. -/
def goAnd (a b : Option Bool) : Option Bool :=
  match a with
  | none => none
  | some false => some false
  | some true => b

/-- The expression `sc.RegionClients[i].Connected`. -/
def regionConnected (sc : SliceClients) (i : Nat) : Option Bool :=
  sc.RegionClients[i]?.map (fun n => n.Connected)

/-- The expression `sc.ZoneClients[i][j].Connected`. -/
def zoneConnected (sc : SliceClients) (i j : Nat) : Option Bool :=
  (sc.ZoneClients[i]?.bind (fun row => row[j]?)).map (fun n => n.Connected)

/-- The method `allNodesConnected` (lines 38-44): the conjunction, from left to right, of
the thirteen flags. -/
def allNodesConnected (sc : SliceClients) : Option Bool :=
  [regionConnected sc 0, regionConnected sc 1, regionConnected sc 2,
   zoneConnected sc 0 0, zoneConnected sc 0 1, zoneConnected sc 0 2,
   zoneConnected sc 1 0, zoneConnected sc 1 1, zoneConnected sc 1 2,
   zoneConnected sc 2 0, zoneConnected sc 2 1, zoneConnected sc 2 2].foldl goAnd
    (some sc.PrimeClient.Connected)

/-- The endpoints of a slice: Prime, the regions, the zones of each region. -/
inductive Endpoint where
  | prime
  | region (i : Nat)
  | zone (i j : Nat)
  deriving DecidableEq

/-- The URL of an endpoint in the configuration: `config.PrimeURL`,
`config.RegionURLs[i]`, `config.ZoneURLs[i][j]`; `none` is the index panic. -/
def Endpoint.url (config : Config) : Endpoint → Option String
  | .prime => some config.PrimeURL
  | .region i => config.RegionURLs[i]?
  | .zone i j => config.ZoneURLs[i]?.bind (fun row => row[j]?)

/-- The entry of an endpoint in the pool; `none` is the index panic. -/
def getNode (sc : SliceClients) : Endpoint → Option NodeClient
  | .prime => some sc.PrimeClient
  | .region i => sc.RegionClients[i]?
  | .zone i j => sc.ZoneClients[i]?.bind (fun row => row[j]?)

/-- The pool with the entry of an endpoint replaced. -/
def setNode (sc : SliceClients) : Endpoint → NodeClient → SliceClients
  | .prime, n => ⟨n, sc.RegionClients, sc.ZoneClients⟩
  | .region i, n => ⟨sc.PrimeClient, sc.RegionClients.set i n, sc.ZoneClients⟩
  | .zone i j, n =>
    ⟨sc.PrimeClient, sc.RegionClients, sc.ZoneClients.set i ((sc.ZoneClients.getD i []).set j n)⟩

/-- One call of `quaiclient.Dial` as the run saw it: the endpoint dialed, whether the
endpoint was marked connected before the call, and whether the call succeeded. -/
structure DialEvent where
  endpoint : Endpoint
  wasConnected : Bool
  ok : Bool
  deriving DecidableEq

/-- The variables of `connectToSlice`: the pool, the number of calls of `Dial` made so
far, and the calls made, in order. -/
structure DialState where
  clients : SliceClients
  attempts : Nat
  log : List DialEvent

/-- One dial statement (lines 165-170, 172-177, 179-184). `Dial k url` is the outcome of
the `k`-th call of `quaiclient.Dial`, made for `url`: `some c` is `(c, nil)`, `none` is
`(nil, err)`. The client field is assigned the result in both cases; the flag is set on
success only. -/
def dialEndpoint (Dial : Nat → String → Option QuaiClient) (config : Config) (e : Endpoint)
    (st : DialState) : Outcome DialState :=
  match e.url config with
  | none => .crash
  | some url =>
    match getNode st.clients e with
    | none => .crash
    | some node =>
      let result := Dial st.attempts url
      .done ⟨setNode st.clients e ⟨result, if result.isSome then true else node.Connected⟩,
        st.attempts + 1, st.log ++ [⟨e, node.Connected, result.isSome⟩]⟩

/-- The endpoints dialed by the inner loop over `j` (lines 178-185) for region `i`. -/
def zoneOrder (i : Nat) : List Endpoint :=
  (List.range common.HierarchyDepth).map (Endpoint.zone i)

/-- The endpoints dialed by one iteration of the loop over `i` (lines 171-186). -/
def regionOrder (i : Nat) : List Endpoint :=
  Endpoint.region i :: zoneOrder i

/-- The endpoints dialed by one sweep (lines 165-186), in order. -/
def sweepOrder : List Endpoint :=
  Endpoint.prime :: ((List.range common.HierarchyDepth).map regionOrder).flatten

/-- The dial statements for a list of endpoints, in order. -/
def dialAll (Dial : Nat → String → Option QuaiClient) (config : Config) :
    List Endpoint → DialState → Outcome DialState
  | [], st => .done st
  | e :: es, st => (dialEndpoint Dial config e st).bind (dialAll Dial config es)

/-- One sweep: the body of the loop of `connectToSlice` after the test (lines 165-186). -/
def sweep (Dial : Nat → String → Option QuaiClient) (config : Config) (st : DialState) :
    Outcome DialState :=
  dialAll Dial config sweepOrder st

/-- The loop of `connectToSlice` (lines 161-187), run for at most `fuel` iterations. -/
def connectLoop (Dial : Nat → String → Option QuaiClient) (config : Config) :
    Nat → DialState → Outcome DialState
  | 0, _ => .timeout
  | fuel + 1, st =>
    match allNodesConnected st.clients with
    | none => .crash
    | some true => .done st
    | some false => (sweep Dial config st).bind (connectLoop Dial config fuel)

/-- The function `connectToSlice` (lines 157-189); the pool it returns is the `clients`
field of the result. -/
def connectToSlice (Dial : Nat → String → Option QuaiClient) (fuel : Nat) (config : Config) :
    Outcome DialState :=
  connectLoop Dial config fuel ⟨NewSliceClients, 0, []⟩

/-- The state at the top of sweep `k` of the loop of `connectToSlice`, if the loop got
that far. -/
def sweepState (Dial : Nat → String → Option QuaiClient) (config : Config) :
    Nat → Option DialState
  | 0 => some ⟨NewSliceClients, 0, []⟩
  | k + 1 =>
    match sweepState Dial config k with
    | none => none
    | some st =>
      match allNodesConnected st.clients with
      | some false =>
        match sweep Dial config st with
        | .done st1 => some st1
        | _ => none
      | _ => none

/-- The value a run returned, if it returned. -/
def Outcome.toOption {α : Type} : Outcome α → Option α
  | .done a => some a
  | _ => none

/-- A configuration with three region URLs and three by three zone URLs. -/
def sixConfig : Config where
  PrimeURL := "prime"
  RegionURLs := ["region-0", "region-1", "region-2"]
  ZoneURLs := [["zone-0-0", "zone-0-1", "zone-0-2"], ["zone-1-0", "zone-1-1", "zone-1-2"],
    ["zone-2-0", "zone-2-1", "zone-2-2"]]

/-- Dial outcomes: call 1 (Region 0 in the first sweep) and call 13 (Prime in the second
sweep) fail, every other call succeeds with a client that serves the six blocks. -/
def flakyDial (k : Nat) (_ : String) : Option QuaiClient :=
  if k = 1 ∨ k = 13 then none else some sixClient

/-- The `Connected` flag of an endpoint in the pool; `none` when the entry is missing. -/
def connectedFlag (sc : SliceClients) (e : Endpoint) : Option Bool :=
  (getNode sc e).map (fun n => n.Connected)

/-- A pool with three region entries and three by three zone entries. -/
def PoolShape (sc : SliceClients) : Prop :=
  sc.RegionClients.length = 3 ∧ sc.ZoneClients.length = 3 ∧
    ∀ row ∈ sc.ZoneClients, row.length = 3

/-- The calls made so far include a successful `Dial` of the endpoint. -/
def dialedOk (log : List DialEvent) (e : Endpoint) : Prop :=
  ∃ ev ∈ log, ev.endpoint = e ∧ ev.ok = true

/-- A store with the by-hash lookups of `sixClient` whose by-height lookup always returns
block 2. -/
def altClient : QuaiClient where
  HeaderByHash := sixClient.HeaderByHash
  HeaderByNumber _ := sixClient.HeaderByHash 2

/-- A client tree that agrees with `sixTree` on the Top client, on Region client 0 and on
Zone client [0][0], and serves `altClient` at every other endpoint. -/
def altTree : SliceClients where
  PrimeClient := ⟨some sixClient, true⟩
  RegionClients := [⟨some sixClient, true⟩, ⟨some altClient, true⟩, ⟨some altClient, true⟩]
  ZoneClients :=
    [[⟨some sixClient, true⟩, ⟨some altClient, true⟩, ⟨some altClient, true⟩],
     List.replicate 3 ⟨some altClient, true⟩, List.replicate 3 ⟨some altClient, true⟩]

/-! ## Hexadecimal heights -/

/-- The value of an upper-case hexadecimal digit: `0`-`9` and `A`-`F`. -/
def hexDigitValue (c : Char) : Option Nat :=
  if 48 ≤ c.toNat ∧ c.toNat ≤ 57 then some (c.toNat - 48)
  else if 65 ≤ c.toNat ∧ c.toNat ≤ 70 then some (c.toNat - 55)
  else none

/-- The digits read from left to right in base 16, onto the number read so far. -/
def parseHexFrom (acc : Nat) : List Char → Option Nat
  | [] => some acc
  | c :: cs =>
    match hexDigitValue c with
    | none => none
    | some d => parseHexFrom (acc * 16 + d) cs

/-- The number that a non-empty text of upper-case hexadecimal digits stands for. -/
def parseHexUpper (cs : List Char) : Option Nat :=
  if cs = [] then none else parseHexFrom 0 cs

/-- The text of a height `m` as `HeaderByNumber` takes it: `0x`, then the upper-case
hexadecimal digits of `m`. The argument `heightArg n` is `heightText ((n + 1) % 2 ^ 64)`. -/
def heightText (m : Nat) : String :=
  "0x" ++ String.mk ((sprintfHex m).map Char.toUpper)

/-- A store with the by-hash lookups of `sixClient`, except that every header has the
number `2 ^ 64 - 1` at every level; by height it serves a header of hash 111 at height 0
and a header of hash 222 at height `2 ^ 64`. -/
def wrapClient : QuaiClient where
  HeaderByHash h :=
    (sixClient.HeaderByHash h).map
      (fun b => ⟨b.Hash, b.ParentHash, fun _ => 2 ^ 64 - 1, b.Location⟩)
  HeaderByNumber s :=
    if s = "0x0" then some (mkHeader 111 0 0 [0, 0])
    else if s = "0x10000000000000000" then some (mkHeader 222 0 (2 ^ 64) [0, 0])
    else none

/-- A client tree in which every endpoint serves `wrapClient`. -/
def wrapTree : SliceClients where
  PrimeClient := ⟨some wrapClient, true⟩
  RegionClients := List.replicate 3 ⟨some wrapClient, true⟩
  ZoneClients := List.replicate 3 (List.replicate 3 ⟨some wrapClient, true⟩)

/-! ## The loop, one iteration at a time -/

theorem GenesisHash_ne_zero : GenesisHash ≠ 0 := by
  unfold GenesisHash
  decide

/-- What a continuing iteration did. -/
theorem loopBody_next {client : QuaiClient} {ctx : Int} {s s1 : LoopState}
    (h : loopBody client ctx s = .next s1) :
    isTerminiFull s.termini = false ∧ s.parent.Hash ≠ GenesisHash ∧
    client.HeaderByHash (s.parent.ParentHash ctx) = some s1.parent ∧
    s1.lookups = s.lookups ++ [s.parent.ParentHash ctx] ∧
    ∃ loc t, sliceAt s1.parent.Location ctx = some loc ∧ s.termini[loc]? = some t ∧
      s1.termini = if t = 0 then s.termini.set loc s1.parent.Hash else s.termini := by
  unfold loopBody at h
  split at h
  · cases h
  split at h
  · cases h
  rename_i hfull hgen
  simp only at h
  split at h
  · cases h
  rename_i header hhdr
  split at h
  · cases h
  rename_i loc hloc
  split at h
  · cases h
  rename_i t ht
  cases h
  refine ⟨by simpa using hfull, hgen, hhdr, rfl, loc, t, hloc, ht, rfl⟩

/-- What an exiting iteration did. -/
theorem loopBody_exit {client : QuaiClient} {ctx : Int} {s : LoopState} {t : List common.Hash}
    (h : loopBody client ctx s = .exit t) :
    (isTerminiFull s.termini = true ∧ t = s.termini) ∨
    (isTerminiFull s.termini = false ∧ s.parent.Hash = GenesisHash ∧
      t = fillGenesis s.termini) := by
  unfold loopBody at h
  split at h
  · rename_i hfull
    cases h
    exact Or.inl ⟨hfull, rfl⟩
  split at h
  · rename_i hfull hgen
    cases h
    exact Or.inr ⟨by simpa using hfull, hgen, rfl⟩
  simp only at h
  split at h
  · cases h
  split at h
  · cases h
  split at h
  · cases h
  cases h

/-- A returning loop went through states that keep every invariant of the iteration, and
returned from one of them. -/
theorem loop_done_inv {client : QuaiClient} {ctx : Int} (P : LoopState → Prop)
    (hstep : ∀ s s1, P s → loopBody client ctx s = .next s1 → P s1) :
    ∀ (fuel : Nat) (s : LoopState) (t : List common.Hash), P s →
      (loop client ctx fuel s).result = .done t →
      ∃ s1, P s1 ∧ loopBody client ctx s1 = .exit t ∧
        (loop client ctx fuel s).lookups = s1.lookups := by
  intro fuel
  induction fuel with
  | zero => intro s t _ h; simp [loop] at h
  | succ n ih =>
    intro s t hP h
    unfold loop at h ⊢
    cases hb : loopBody client ctx s with
    | exit t1 =>
      rw [hb] at h
      simp only [Outcome.done.injEq] at h
      subst h
      exact ⟨s, hP, hb, rfl⟩
    | next s1 =>
      rw [hb] at h
      simp only
      exact ih s1 t (hstep s s1 hP hb) h
    | fault asked =>
      rw [hb] at h
      simp at h

/-- What entering the loop did. -/
theorem enterLoop_some {client : QuaiClient} {ctx : Int} {hash : common.Hash} {s : LoopState}
    (h : enterLoop client ctx hash = some s) :
    client.HeaderByHash hash = some s.parent ∧ s.lookups = [hash] ∧
    ∃ loc, sliceAt s.parent.Location ctx = some loc ∧ loc < 4 ∧
      s.termini = ((List.replicate 4 0).set 3 hash).set loc hash := by
  unfold enterLoop at h
  simp only at h
  split at h
  · cases h
  rename_i header hh
  split at h
  · cases h
  rename_i loc hl
  split at h
  · rename_i hlt
    cases h
    exact ⟨hh, rfl, loc, hl, by simpa using hlt, rfl⟩
  · cases h

/-- A returning call at the Top or Region level entered the loop. -/
theorem GenerateTermini_enter {fuel : Nat} {sc : SliceClients} {ctx index : Int}
    {hash : common.Hash} {t : List common.Hash}
    (hctx : ctx = common.PRIME_CTX ∨ ctx = common.REGION_CTX)
    (hret : (GenerateTermini fuel sc ctx index hash).result = .done t) :
    ∃ client s, selectClient sc ctx index = some (some client) ∧
      enterLoop client ctx hash = some s ∧
      GenerateTermini fuel sc ctx index hash = loop client ctx fuel s := by
  unfold GenerateTermini at hret ⊢
  cases hsel : selectClient sc ctx index with
  | none => rw [hsel] at hret; simp at hret
  | some oc =>
    rw [hsel] at hret
    simp only [hctx, if_true] at hret ⊢
    cases oc with
    | none => simp at hret
    | some client =>
      simp only at hret ⊢
      cases hh : enterLoop client ctx hash with
      | none => rw [hh] at hret; simp at hret
      | some s => exact ⟨client, s, rfl, hh, rfl⟩

/-- A call at the Top or Region level with a client that enters the loop is the loop. -/
theorem GenerateTermini_loop {sc : SliceClients} {ctx index : Int} {client : QuaiClient}
    {hash : common.Hash} {s : LoopState} (fuel : Nat)
    (hctx : ctx = common.PRIME_CTX ∨ ctx = common.REGION_CTX)
    (hsel : selectClient sc ctx index = some (some client))
    (henter : enterLoop client ctx hash = some s) :
    GenerateTermini fuel sc ctx index hash = loop client ctx fuel s := by
  unfold GenerateTermini
  rw [hsel]
  simp only [hctx, if_true, henter]

/-! ## Invariants of the vector -/

/-- The length of the vector never changes in the loop. -/
theorem loopBody_next_length {client : QuaiClient} {ctx : Int} {s s1 : LoopState}
    (h : loopBody client ctx s = .next s1) : s1.termini.length = s.termini.length := by
  obtain ⟨_, _, _, _, loc, t, _, _, ht⟩ := loopBody_next h
  rw [ht]
  split <;> simp

/-- A slot that is filled is left alone by an iteration. -/
theorem loopBody_next_keep {client : QuaiClient} {ctx : Int} {s s1 : LoopState}
    (h : loopBody client ctx s = .next s1) (i : Nat) (x : common.Hash)
    (hx : s.termini[i]? = some x) (hnz : x ≠ 0) : s1.termini[i]? = some x := by
  obtain ⟨_, _, _, _, loc, t, _, hloc, ht⟩ := loopBody_next h
  rw [ht]
  split
  · rename_i ht0
    subst ht0
    have hne : loc ≠ i := by
      intro hEq
      subst hEq
      rw [hloc] at hx
      exact hnz (Option.some.inj hx).symm
    rw [List.getElem?_set_ne hne]
    exact hx
  · exact hx

/-- A slot that is filled is left alone by the exit of the loop. -/
theorem loopBody_exit_keep {client : QuaiClient} {ctx : Int} {s : LoopState}
    {t : List common.Hash} (h : loopBody client ctx s = .exit t) (i : Nat) (x : common.Hash)
    (hx : s.termini[i]? = some x) (hnz : x ≠ 0) : t[i]? = some x := by
  rcases loopBody_exit h with ⟨_, ht⟩ | ⟨_, _, ht⟩
  · rw [ht]; exact hx
  · rw [ht, fillGenesis, List.getElem?_map, hx]
    simp [hnz]

/-- The exit of the loop keeps the length of the vector. -/
theorem loopBody_exit_length {client : QuaiClient} {ctx : Int} {s : LoopState}
    {t : List common.Hash} (h : loopBody client ctx s = .exit t) :
    t.length = s.termini.length := by
  rcases loopBody_exit h with ⟨_, ht⟩ | ⟨_, _, ht⟩
  · rw [ht]
  · rw [ht, fillGenesis, List.length_map]

/-- A vector of four entries that `isTerminiFull` accepts has no zero entry. -/
theorem isTerminiFull_nonzero (t : List common.Hash) (hlen : t.length = 4)
    (hfull : isTerminiFull t = true) : ∀ x ∈ t, x ≠ 0 := by
  match t, hlen with
  | [a, b, c, d], _ =>
    unfold isTerminiFull at hfull
    simp only [List.foldl_cons, List.foldl_nil, beq_iff_eq] at hfull
    intro x hx
    simp only [List.mem_cons, List.mem_singleton, List.not_mem_nil, or_false] at hx
    by_cases ha : a = 0 <;> by_cases hb : b = 0 <;> by_cases hc : c = 0 <;>
      by_cases hd : d = 0 <;> simp [ha, hb, hc, hd] at hfull
    rcases hx with rfl | rfl | rfl | rfl <;> assumption

/-- After the genesis fill no entry is zero. -/
theorem fillGenesis_nonzero (t : List common.Hash) : ∀ x ∈ fillGenesis t, x ≠ 0 := by
  intro x hx
  unfold fillGenesis at hx
  obtain ⟨y, _, hy⟩ := List.mem_map.mp hx
  subst hy
  split
  · exact GenesisHash_ne_zero
  · assumption

/-! ## The position of the walk on the ancestor chain -/

/-- On entry the loop is at the reference header, after one lookup. -/
theorem enterLoop_chain {client : QuaiClient} {ctx : Int} {hash : common.Hash} {s : LoopState}
    (h : enterLoop client ctx hash = some s) :
    s.lookups.length = 0 + 1 ∧ chainAt client ctx hash 0 = some s.parent := by
  obtain ⟨hh, hl, _⟩ := enterLoop_some h
  exact ⟨by rw [hl]; rfl, hh⟩

/-- A continuing iteration moves one header up the chain, with one more lookup. -/
theorem loopBody_next_chain {client : QuaiClient} {ctx : Int} {hash : common.Hash}
    {s s1 : LoopState} {k : Nat} (h : loopBody client ctx s = .next s1)
    (hlen : s.lookups.length = k + 1) (hpos : chainAt client ctx hash k = some s.parent) :
    s1.lookups.length = (k + 1) + 1 ∧ chainAt client ctx hash (k + 1) = some s1.parent := by
  obtain ⟨_, _, hh, hl, _⟩ := loopBody_next h
  constructor
  · rw [hl, List.length_append, hlen]; rfl
  · show (chainAt client ctx hash k).bind _ = _
    rw [hpos]
    exact hh

/-- The entries of the vector on entry: zero or the reference hash. -/
theorem enterLoop_mem {client : QuaiClient} {ctx : Int} {hash : common.Hash} {s : LoopState}
    (h : enterLoop client ctx hash = some s) :
    s.termini.length = 4 ∧ ∀ x ∈ s.termini, x = 0 ∨ x = hash := by
  obtain ⟨_, _, loc, _, _, ht⟩ := enterLoop_some h
  rw [ht]
  refine ⟨by simp, ?_⟩
  intro x hx
  rcases List.mem_or_eq_of_mem_set hx with hx | hx
  · rcases List.mem_or_eq_of_mem_set hx with hx | hx
    · exact Or.inl (List.eq_of_mem_replicate hx)
    · exact Or.inr hx
  · exact Or.inr hx

/-- The loop run from a state is the loop run from any later state of the same run, with
the fuel that is left. -/
theorem loop_stateAfter {client : QuaiClient} {ctx : Int} :
    ∀ (k n : Nat) (s s1 : LoopState), stateAfter client ctx k s = some s1 →
      loop client ctx (k + n) s = loop client ctx n s1 := by
  intro k
  induction k with
  | zero =>
    intro n s s1 h
    simp only [stateAfter, Option.some.injEq] at h
    subst h
    simp
  | succ k ih =>
    intro n s s1 h
    unfold stateAfter at h
    cases hb : loopBody client ctx s with
    | exit t => rw [hb] at h; cases h
    | fault a => rw [hb] at h; cases h
    | next s2 =>
      rw [hb] at h
      simp only at h
      have hfuel : k + 1 + n = (k + n) + 1 := by omega
      rw [hfuel]
      conv_lhs => unfold loop
      rw [hb]
      exact ih n s2 s1 h

/-- The position on the chain of a later state of the run. -/
theorem stateAfter_chain {client : QuaiClient} {ctx : Int} {hash : common.Hash} :
    ∀ (k j : Nat) (s s1 : LoopState), stateAfter client ctx k s = some s1 →
      s.lookups.length = j + 1 → chainAt client ctx hash j = some s.parent →
      s1.lookups.length = (j + k) + 1 ∧ chainAt client ctx hash (j + k) = some s1.parent := by
  intro k
  induction k with
  | zero =>
    intro j s s1 h hj hpos
    simp only [stateAfter, Option.some.injEq] at h
    subst h
    exact ⟨hj, hpos⟩
  | succ k ih =>
    intro j s s1 h hj hpos
    unfold stateAfter at h
    cases hb : loopBody client ctx s with
    | exit t => rw [hb] at h; cases h
    | fault a => rw [hb] at h; cases h
    | next s2 =>
      rw [hb] at h
      simp only at h
      obtain ⟨hj1, hpos1⟩ := loopBody_next_chain hb hj hpos
      have := ih (j + 1) s2 s1 h hj1 hpos1
      have hidx : j + 1 + k = j + (k + 1) := by omega
      rw [hidx] at this
      exact this

/-- What an iteration that panics has looked up. -/
theorem loopBody_fault {client : QuaiClient} {ctx : Int} {s : LoopState}
    {asked : List common.Hash} (h : loopBody client ctx s = .fault asked) :
    asked = s.lookups ++ [s.parent.ParentHash ctx] := by
  unfold loopBody at h
  split at h
  · cases h
  split at h
  · cases h
  simp only at h
  split at h
  · cases h; rfl
  split at h
  · cases h; rfl
  split at h
  · cases h; rfl
  cases h

/-- At the genesis header the loop exits. -/
theorem loopBody_genesis (client : QuaiClient) (ctx : Int) {s : LoopState}
    (hgen : s.parent.Hash = GenesisHash) : ∃ t, loopBody client ctx s = .exit t := by
  unfold loopBody
  split
  · exact ⟨_, rfl⟩
  · exact ⟨_, rfl⟩

/-- From position `j` of a chain whose header `k` is the genesis header, the loop ends
within `k - j + 1` iterations, and the run has looked up at most `k + 1` headers. -/
theorem loop_reaches_genesis {client : QuaiClient} {ctx : Int} {hash : common.Hash}
    {k : Nat} {g : Header} (hg : chainAt client ctx hash k = some g)
    (hgen : g.Hash = GenesisHash) :
    ∀ (d j fuel : Nat) (s : LoopState), j + d = k → d < fuel →
      s.lookups.length = j + 1 → chainAt client ctx hash j = some s.parent →
      (loop client ctx fuel s).result ≠ .timeout ∧
        (loop client ctx fuel s).lookups.length ≤ k + 1 := by
  intro d
  induction d with
  | zero =>
    intro j fuel s hjk hfuel hj hpos
    obtain ⟨n, rfl⟩ : ∃ n, fuel = n + 1 := ⟨fuel - 1, by omega⟩
    have hjk0 : j = k := by omega
    subst hjk0
    rw [hg] at hpos
    cases hpos
    obtain ⟨t, ht⟩ := loopBody_genesis client ctx hgen
    unfold loop
    rw [ht]
    exact ⟨by simp, by simp [hj]⟩
  | succ d ih =>
    intro j fuel s hjk hfuel hj hpos
    obtain ⟨n, rfl⟩ : ∃ n, fuel = n + 1 := ⟨fuel - 1, by omega⟩
    unfold loop
    cases hb : loopBody client ctx s with
    | exit t => exact ⟨by simp, by simp only [hj]; omega⟩
    | fault a =>
      rw [loopBody_fault hb]
      exact ⟨by simp, by simp only [List.length_append, hj, List.length_singleton]; omega⟩
    | next s1 =>
      obtain ⟨hj1, hpos1⟩ := loopBody_next_chain hb hj hpos
      exact ih (j + 1) n s1 (by omega) (by omega) hj1 hpos1

/-- While a slot of a four-entry vector is empty, the vector is not full. -/
theorem isTerminiFull_false_of_zero (t : List common.Hash) (hlen : t.length = 4) (i : Nat)
    (hz : t[i]? = some 0) : isTerminiFull t = false := by
  cases hfull : isTerminiFull t with
  | false => rfl
  | true =>
    have hmem : (0 : common.Hash) ∈ t := List.getElem?_mem hz
    exact absurd rfl (isTerminiFull_nonzero t hlen hfull 0 hmem)

/-- On a chain that never ends, never reaches genesis and never visits branch `i`, the
loop uses up any fuel. -/
theorem loop_never_exits {client : QuaiClient} {ctx : Int} {hash : common.Hash} {i : Nat}
    (hchain : ∀ j, ∃ hd loc, chainAt client ctx hash j = some hd ∧ hd.Hash ≠ GenesisHash ∧
      sliceAt hd.Location ctx = some loc ∧ loc < 4 ∧ loc ≠ i) :
    ∀ (fuel j : Nat) (s : LoopState), s.lookups.length = j + 1 →
      chainAt client ctx hash j = some s.parent → s.termini.length = 4 →
      s.termini[i]? = some 0 → (loop client ctx fuel s).result = .timeout := by
  intro fuel
  induction fuel with
  | zero => intro j s _ _ _ _; rfl
  | succ n ih =>
    intro j s hj hpos hlen hz
    obtain ⟨hd, _, hhd, hng, _, _, _⟩ := hchain j
    rw [hpos] at hhd
    cases hhd
    obtain ⟨hd1, loc, hhd1, _, hloc, hlt, hne⟩ := hchain (j + 1)
    have hfetch : client.HeaderByHash (s.parent.ParentHash ctx) = some hd1 := by
      have : chainAt client ctx hash (j + 1)
          = (chainAt client ctx hash j).bind
              (fun h => client.HeaderByHash (h.ParentHash ctx)) := rfl
      rw [this, hpos] at hhd1
      exact hhd1
    obtain ⟨y, hy⟩ : ∃ y, s.termini[loc]? = some y :=
      ⟨s.termini[loc], List.getElem?_eq_getElem (by omega)⟩
    have hb : loopBody client ctx s
        = .next ⟨if y = 0 then s.termini.set loc hd1.Hash else s.termini, hd1,
            s.lookups ++ [s.parent.ParentHash ctx]⟩ := by
      unfold loopBody
      rw [isTerminiFull_false_of_zero s.termini hlen i hz]
      simp only [Bool.false_eq_true, if_false, hng, hfetch, hloc, hy]
    unfold loop
    rw [hb]
    obtain ⟨hj1, hpos1⟩ := loopBody_next_chain hb hj hpos
    refine ih (j + 1) _ hj1 hpos1 ?_ ?_
    · show (if y = 0 then s.termini.set loc hd1.Hash else s.termini).length = 4
      split <;> simp [hlen]
    · show (if y = 0 then s.termini.set loc hd1.Hash else s.termini)[i]? = some 0
      split
      · rw [List.getElem?_set_ne hne]; exact hz
      · exact hz

/-- Every header of the chain of `cycleClient` from hash 1 is the header of hash 1. -/
theorem cycle_chain (j : Nat) : chainAt cycleClient 0 1 j = some (mkHeader 1 1 7 [0, 0]) := by
  induction j with
  | zero => rfl
  | succ n ih =>
    show (chainAt cycleClient 0 1 n).bind _ = _
    rw [ih]
    rfl

/-- The chain of `cycleClient` never ends, never reaches genesis, never visits branch 1. -/
theorem cycle_chain_stuck : ∀ j, ∃ hd loc, chainAt cycleClient 0 1 j = some hd ∧
    hd.Hash ≠ GenesisHash ∧ sliceAt hd.Location 0 = some loc ∧ loc < 4 ∧ loc ≠ 1 := by
  intro j
  refine ⟨_, 0, cycle_chain j, ?_, rfl, by decide, by decide⟩
  simp [mkHeader, GenesisHash]

/-- A call on a chain that never ends, never reaches genesis and never visits branch `i`
uses up any fuel. -/
theorem GenerateTermini_never_exits {sc : SliceClients} {ctx index : Int}
    {hash : common.Hash} {client : QuaiClient} {i : Nat}
    (hctx : ctx = common.PRIME_CTX ∨ ctx = common.REGION_CTX)
    (hsel : selectClient sc ctx index = some (some client)) (hi : i < 3)
    (hchain : ∀ j, ∃ hd loc, chainAt client ctx hash j = some hd ∧ hd.Hash ≠ GenesisHash ∧
      sliceAt hd.Location ctx = some loc ∧ loc < 4 ∧ loc ≠ i) (fuel : Nat) :
    (GenerateTermini fuel sc ctx index hash).result = .timeout := by
  obtain ⟨hd, loc, hhd, _, hloc, hlt, hne⟩ := hchain 0
  have hh : client.HeaderByHash hash = some hd := hhd
  have henter : enterLoop client ctx hash
      = some ⟨((List.replicate 4 0).set 3 hash).set loc hash, hd, [hash]⟩ := by
    unfold enterLoop
    simp [hh, hloc, hlt]
  rw [GenerateTermini_loop fuel hctx hsel henter]
  refine loop_never_exits hchain fuel 0 _ rfl hhd (by simp) ?_
  show (((List.replicate 4 0).set 3 hash).set loc hash)[i]? = some 0
  rw [List.getElem?_set_ne hne]
  interval_cases i <;> simp [List.replicate]

/-! ## Returning, and the slot of a branch -/

/-- Every header of the chain before an existing one exists. -/
theorem chainAt_of_le {client : QuaiClient} {ctx : Int} {hash : common.Hash} :
    ∀ (d j : Nat) (g : Header), chainAt client ctx hash (j + d) = some g →
      ∃ hd, chainAt client ctx hash j = some hd := by
  intro d
  induction d with
  | zero => intro j g h; exact ⟨g, h⟩
  | succ d ih =>
    intro j g h
    have hstep : chainAt client ctx hash (j + (d + 1))
        = (chainAt client ctx hash (j + d)).bind
            (fun h => client.HeaderByHash (h.ParentHash ctx)) := rfl
    rw [hstep] at h
    cases hc : chainAt client ctx hash (j + d) with
    | none => rw [hc] at h; cases h
    | some hd => exact ih j hd hc

/-- An iteration that is not at the end, whose lookup succeeds with a location index
inside the vector, continues. -/
theorem loopBody_continues {client : QuaiClient} {ctx : Int} {s : LoopState} {hd : Header}
    {loc : Nat} (hfull : isTerminiFull s.termini = false) (hgen : s.parent.Hash ≠ GenesisHash)
    (hh : client.HeaderByHash (s.parent.ParentHash ctx) = some hd)
    (hl : sliceAt hd.Location ctx = some loc) (hlt : loc < s.termini.length) :
    ∃ s1, loopBody client ctx s = .next s1 := by
  obtain ⟨y, hy⟩ : ∃ y, s.termini[loc]? = some y :=
    ⟨s.termini[loc], List.getElem?_eq_getElem hlt⟩
  unfold loopBody
  simp only [hfull, Bool.false_eq_true, if_false, hgen, hh, hl, hy]
  exact ⟨_, rfl⟩

/-- An iteration exits or continues or panics. -/
theorem loopBody_cases (client : QuaiClient) (ctx : Int) (s : LoopState) :
    (∃ t, loopBody client ctx s = .exit t) ∨
      (isTerminiFull s.termini = false ∧ s.parent.Hash ≠ GenesisHash) := by
  cases hfull : isTerminiFull s.termini with
  | true =>
    left
    unfold loopBody
    rw [hfull]
    exact ⟨_, rfl⟩
  | false =>
    by_cases hgen : s.parent.Hash = GenesisHash
    · exact Or.inl (loopBody_genesis client ctx hgen)
    · exact Or.inr ⟨rfl, hgen⟩

/-- From position `j` of a chain whose header `k` is the genesis header and whose
headers up to `k` have a location index below 4, the loop returns within `k - j + 1`
iterations. -/
theorem loop_returns {client : QuaiClient} {ctx : Int} {hash : common.Hash}
    {k : Nat} {g : Header} (hg : chainAt client ctx hash k = some g)
    (hgen : g.Hash = GenesisHash)
    (hvalid : ∀ j hd, j ≤ k → chainAt client ctx hash j = some hd →
      ∃ loc, sliceAt hd.Location ctx = some loc ∧ loc < 4) :
    ∀ (d j fuel : Nat) (s : LoopState), j + d = k → d < fuel →
      s.lookups.length = j + 1 → chainAt client ctx hash j = some s.parent →
      s.termini.length = 4 → ∃ t, (loop client ctx fuel s).result = .done t := by
  intro d
  induction d with
  | zero =>
    intro j fuel s hjk hfuel hj hpos _
    obtain ⟨n, rfl⟩ : ∃ n, fuel = n + 1 := ⟨fuel - 1, by omega⟩
    have hjk0 : j = k := by omega
    subst hjk0
    rw [hg] at hpos
    cases hpos
    obtain ⟨t, ht⟩ := loopBody_genesis client ctx hgen
    unfold loop
    rw [ht]
    exact ⟨t, rfl⟩
  | succ d ih =>
    intro j fuel s hjk hfuel hj hpos hlen
    obtain ⟨n, rfl⟩ : ∃ n, fuel = n + 1 := ⟨fuel - 1, by omega⟩
    unfold loop
    rcases loopBody_cases client ctx s with ⟨t, ht⟩ | ⟨hfull, hng⟩
    · rw [ht]
      exact ⟨t, rfl⟩
    · have hk1 : (j + 1) + d = k := by omega
      obtain ⟨hd1, hhd1⟩ := chainAt_of_le d (j + 1) g (by rw [hk1]; exact hg)
      have hfetch : client.HeaderByHash (s.parent.ParentHash ctx) = some hd1 := by
        have hstep : chainAt client ctx hash (j + 1)
            = (chainAt client ctx hash j).bind
                (fun h => client.HeaderByHash (h.ParentHash ctx)) := rfl
        rw [hstep, hpos] at hhd1
        exact hhd1
      obtain ⟨loc, hloc, hlt⟩ := hvalid (j + 1) hd1 (by omega) hhd1
      obtain ⟨s1, hb⟩ := loopBody_continues hfull hng hfetch hloc (by omega)
      rw [hb]
      obtain ⟨hj1, hpos1⟩ := loopBody_next_chain hb hj hpos
      exact ih (j + 1) n s1 hk1 (by omega) hj1 hpos1
        ((loopBody_next_length hb).trans hlen)

/-- A call on a chain whose header `k` is the genesis header and whose headers up to `k`
have a location index below 4 returns, with at most `k + 1` lookups. -/
theorem GenerateTermini_returns {fuel : Nat} {sc : SliceClients} {ctx index : Int}
    {hash : common.Hash} {client : QuaiClient} {k : Nat} {g : Header}
    (hctx : ctx = common.PRIME_CTX ∨ ctx = common.REGION_CTX)
    (hsel : selectClient sc ctx index = some (some client))
    (hg : chainAt client ctx hash k = some g) (hgen : g.Hash = GenesisHash)
    (hvalid : ∀ j hd, j ≤ k → chainAt client ctx hash j = some hd →
      ∃ loc, sliceAt hd.Location ctx = some loc ∧ loc < 4)
    (hfuel : k < fuel) :
    (∃ t, (GenerateTermini fuel sc ctx index hash).result = .done t) ∧
      (GenerateTermini fuel sc ctx index hash).lookups.length ≤ k + 1 := by
  obtain ⟨hd0, hhd0⟩ := chainAt_of_le k 0 g (by rw [Nat.zero_add]; exact hg)
  obtain ⟨loc, hloc, hlt⟩ := hvalid 0 hd0 (by omega) hhd0
  have hh : client.HeaderByHash hash = some hd0 := hhd0
  have henter : enterLoop client ctx hash
      = some ⟨((List.replicate 4 0).set 3 hash).set loc hash, hd0, [hash]⟩ := by
    unfold enterLoop
    simp [hh, hloc, hlt]
  rw [GenerateTermini_loop fuel hctx hsel henter]
  obtain ⟨hl0, hc0⟩ := enterLoop_chain henter
  exact ⟨loop_returns hg hgen hvalid k 0 fuel _ (by omega) hfuel hl0 hc0 (by simp),
    (loop_reaches_genesis hg hgen k 0 fuel _ (by omega) hfuel hl0 hc0).2⟩

/-- The first header of the chain on branch `i`, when the walk has fetched it and its
hash is non-zero, gives slot `i` of the result. -/
theorem slot_of_first_on_branch {fuel : Nat} {sc : SliceClients} {ctx index : Int}
    {hash : common.Hash} {client : QuaiClient} {t : List common.Hash}
    (hctx : ctx = common.PRIME_CTX ∨ ctx = common.REGION_CTX)
    (hsel : selectClient sc ctx index = some (some client))
    (hcons : ∀ hd, client.HeaderByHash hash = some hd → hd.Hash = hash)
    (hret : (GenerateTermini fuel sc ctx index hash).result = .done t)
    (i : Nat) (hi : i < 3) (k : Nat) (hd : Header)
    (hk : k < (GenerateTermini fuel sc ctx index hash).lookups.length)
    (hkd : chainAt client ctx hash k = some hd)
    (hloc : sliceAt hd.Location ctx = some i)
    (hfirst : ∀ j hj, j < k → chainAt client ctx hash j = some hj →
      sliceAt hj.Location ctx ≠ some i)
    (hnz : hd.Hash ≠ 0) :
    t[i]? = some hd.Hash := by
  obtain ⟨client1, s0, hsel1, henter, hrun⟩ := GenerateTermini_enter hctx hret
  rw [hsel] at hsel1
  cases hsel1
  rw [hrun] at hret hk
  obtain ⟨hl0, hc0⟩ := enterLoop_chain henter
  obtain ⟨hh0, _, loc0, hloc0, hlt0, ht0⟩ := enterLoop_some henter
  obtain ⟨s1, ⟨j, hj, hpos, hbefore, hafter⟩, hexit, hlk⟩ :=
    loop_done_inv
      (fun s => ∃ j, s.lookups.length = j + 1 ∧ chainAt client ctx hash j = some s.parent ∧
        (j < k → s.termini[i]? = some 0) ∧ (k ≤ j → s.termini[i]? = some hd.Hash))
      (by
        rintro s s1 ⟨j, hj, hpos, hbefore, hafter⟩ hb
        obtain ⟨hj1, hpos1⟩ := loopBody_next_chain hb hj hpos
        refine ⟨j + 1, hj1, hpos1, ?_, ?_⟩
        · intro hlt
          obtain ⟨_, _, _, _, loc, y, hl, hy, ht⟩ := loopBody_next hb
          have hne : loc ≠ i := by
            intro hEq
            subst hEq
            exact hfirst (j + 1) s1.parent hlt hpos1 hl
          rw [ht]
          split
          · rw [List.getElem?_set_ne hne]
            exact hbefore (by omega)
          · exact hbefore (by omega)
        · intro hle
          rcases Nat.eq_or_lt_of_le hle with hEq | hlt
          · obtain ⟨_, _, _, _, loc, y, hl, hy, ht⟩ := loopBody_next hb
            rw [← hEq, hkd] at hpos1
            cases hpos1
            rw [hloc] at hl
            cases hl
            have h0 := hbefore (by omega)
            rw [hy] at h0
            cases h0
            rw [ht]
            simp only [if_true]
            have hlen : i < s.termini.length := by
              by_contra hge
              rw [List.getElem?_eq_none (by omega)] at hy
              cases hy
            rw [List.getElem?_set_self hlen]
          · exact loopBody_next_keep hb i hd.Hash (hafter (by omega)) hnz)
      fuel s0 t
      ⟨0, hl0, hc0,
        (by
          intro hlt
          have hne : loc0 ≠ i := by
            intro hEq
            subst hEq
            exact hfirst 0 s0.parent hlt hc0 hloc0
          rw [ht0, List.getElem?_set_ne hne]
          interval_cases i <;> simp [List.replicate]),
        (by
          intro hle
          have hk0 : k = 0 := by omega
          subst hk0
          rw [hkd] at hc0
          cases hc0
          rw [hloc] at hloc0
          cases hloc0
          rw [ht0, List.getElem?_set_self (by simp; omega), hcons s0.parent hh0])⟩
      hret
  rw [hlk] at hk
  exact loopBody_exit_keep hexit i hd.Hash (hafter (by omega)) hnz

/-- A branch `i` that no fetched header of the chain lies on: the walk stopped at the
genesis header and slot `i` of the result is `GenesisHash`. -/
theorem slot_of_absent_branch {fuel : Nat} {sc : SliceClients} {ctx index : Int}
    {hash : common.Hash} {client : QuaiClient} {t : List common.Hash}
    (hctx : ctx = common.PRIME_CTX ∨ ctx = common.REGION_CTX)
    (hsel : selectClient sc ctx index = some (some client))
    (hret : (GenerateTermini fuel sc ctx index hash).result = .done t)
    (i : Nat) (hi : i < 3)
    (habsent : ∀ j hj, j < (GenerateTermini fuel sc ctx index hash).lookups.length →
      chainAt client ctx hash j = some hj → sliceAt hj.Location ctx ≠ some i) :
    t[i]? = some GenesisHash ∧
      ∃ m g, (GenerateTermini fuel sc ctx index hash).lookups.length = m + 1 ∧
        chainAt client ctx hash m = some g ∧ g.Hash = GenesisHash := by
  obtain ⟨client1, s0, hsel1, henter, hrun⟩ := GenerateTermini_enter hctx hret
  rw [hsel] at hsel1
  cases hsel1
  rw [hrun] at hret habsent ⊢
  obtain ⟨hl0, hc0⟩ := enterLoop_chain henter
  obtain ⟨hh0, _, loc0, hloc0, hlt0, ht0⟩ := enterLoop_some henter
  obtain ⟨s1, ⟨hlen, ⟨j, hj, hpos⟩, hzero⟩, hexit, hlk⟩ :=
    loop_done_inv
      (fun s => s.termini.length = 4 ∧
        (∃ j, s.lookups.length = j + 1 ∧ chainAt client ctx hash j = some s.parent) ∧
        ((∀ j hj, j < s.lookups.length → chainAt client ctx hash j = some hj →
          sliceAt hj.Location ctx ≠ some i) → s.termini[i]? = some 0))
      (by
        rintro s s1 ⟨hlen, ⟨j, hj, hpos⟩, hzero⟩ hb
        obtain ⟨hj1, hpos1⟩ := loopBody_next_chain hb hj hpos
        refine ⟨(loopBody_next_length hb).trans hlen, ⟨j + 1, hj1, hpos1⟩, ?_⟩
        intro hab
        obtain ⟨_, _, _, _, loc, y, hl, hy, ht⟩ := loopBody_next hb
        have hz : s.termini[i]? = some 0 :=
          hzero (fun j1 hj1d hlt hc => hab j1 hj1d (by omega) hc)
        have hne : loc ≠ i := by
          intro hEq
          subst hEq
          exact hab (j + 1) s1.parent (by omega) hpos1 hl
        rw [ht]
        split
        · rw [List.getElem?_set_ne hne]; exact hz
        · exact hz)
      fuel s0 t
      ⟨by rw [ht0]; simp, ⟨0, hl0, hc0⟩,
        (by
          intro hab
          have hne : loc0 ≠ i := by
            intro hEq
            subst hEq
            exact hab 0 s0.parent (by omega) hc0 hloc0
          rw [ht0, List.getElem?_set_ne hne]
          interval_cases i <;> simp [List.replicate])⟩
      hret
  rw [hlk] at habsent ⊢
  have hz := hzero habsent
  rcases loopBody_exit hexit with ⟨hfull, _⟩ | ⟨_, hgen, ht⟩
  · rw [isTerminiFull_false_of_zero s1.termini hlen i hz] at hfull
    cases hfull
  · refine ⟨?_, j, s1.parent, hj, hpos, hgen⟩
    rw [ht, fillGenesis, List.getElem?_map, hz]
    simp

/-- Slot 3 of a returned vector is the reference hash, when that hash is non-zero or
the level is neither Top nor Region. -/
theorem GenerateTermini_slot3 {fuel : Nat} {sc : SliceClients} {ctx index : Int}
    {hash : common.Hash} {t : List common.Hash}
    (hret : (GenerateTermini fuel sc ctx index hash).result = .done t)
    (hnz : hash ≠ 0 ∨ ¬ (ctx = common.PRIME_CTX ∨ ctx = common.REGION_CTX)) :
    t[3]? = some hash := by
  by_cases hctx : ctx = common.PRIME_CTX ∨ ctx = common.REGION_CTX
  · have hne : hash ≠ 0 := by
      rcases hnz with h | h
      · exact h
      · exact absurd hctx h
    obtain ⟨client, s0, _, henter, hrun⟩ := GenerateTermini_enter hctx hret
    obtain ⟨_, _, loc, _, hlt, hs0⟩ := enterLoop_some henter
    rw [hrun] at hret
    obtain ⟨s1, hP, hexit, _⟩ :=
      loop_done_inv (fun s => s.termini[3]? = some hash)
        (fun s s1 hs hb => loopBody_next_keep hb 3 hash hs hne) fuel s0 t
        (by
          show s0.termini[3]? = some hash
          rw [hs0]
          interval_cases loc <;> simp [List.replicate])
        hret
    exact loopBody_exit_keep hexit 3 hash hP hne
  · unfold GenerateTermini at hret
    cases hsel : selectClient sc ctx index with
    | none => rw [hsel] at hret; simp at hret
    | some oc =>
      rw [hsel] at hret
      simp only [hctx, if_false, Outcome.done.injEq] at hret
      subst hret
      simp [List.replicate]

/-- A returning walk stopped at a header of the chain, the last one it fetched, which is
the genesis header unless the vector is full. -/
theorem GenerateTermini_stop {fuel : Nat} {sc : SliceClients} {ctx index : Int}
    {hash : common.Hash} {client : QuaiClient} {t : List common.Hash}
    (hctx : ctx = common.PRIME_CTX ∨ ctx = common.REGION_CTX)
    (hsel : selectClient sc ctx index = some (some client))
    (hret : (GenerateTermini fuel sc ctx index hash).result = .done t) :
    ∃ m g, (GenerateTermini fuel sc ctx index hash).lookups.length = m + 1 ∧
      chainAt client ctx hash m = some g ∧
      (g.Hash = GenesisHash ∨ isTerminiFull t = true) := by
  obtain ⟨client1, s0, hsel1, henter, hrun⟩ := GenerateTermini_enter hctx hret
  rw [hsel] at hsel1
  cases hsel1
  rw [hrun] at hret ⊢
  obtain ⟨hl0, hc0⟩ := enterLoop_chain henter
  obtain ⟨s1, ⟨j, hj, hpos⟩, hexit, hlk⟩ :=
    loop_done_inv
      (fun s => ∃ j, s.lookups.length = j + 1 ∧ chainAt client ctx hash j = some s.parent)
      (by
        rintro s s1 ⟨j, hj, hpos⟩ hb
        obtain ⟨hj1, hpos1⟩ := loopBody_next_chain hb hj hpos
        exact ⟨j + 1, hj1, hpos1⟩)
      fuel s0 t ⟨0, hl0, hc0⟩ hret
  rw [hlk]
  refine ⟨j, s1.parent, hj, hpos, ?_⟩
  rcases loopBody_exit hexit with ⟨hfull, ht⟩ | ⟨_, hgen, _⟩
  · rw [ht]; exact Or.inr hfull
  · exact Or.inl hgen

/-! ## The propagation, step by step -/

/-- A sequence of two steps that returns: both steps returned. -/
theorem Outcome.bind_done {α β : Type} {x : Outcome α} {f : α → Outcome β} {b : β}
    (h : x.bind f = .done b) : ∃ a, x = .done a ∧ f a = .done b := by
  cases x with
  | done a => exact ⟨a, rfl, h⟩
  | crash => cases h
  | timeout => cases h

/-- A value that did not panic was there. -/
theorem orCrash_done {α : Type} {x : Option α} {a : α} (h : orCrash x = .done a) :
    x = some a := by
  cases x with
  | none => cases h
  | some y =>
    simp only [orCrash, Outcome.done.injEq] at h
    rw [h]

/-- A returning `collect` holds, at each position, what the body returned there. -/
theorem collect_done {α : Type} {f : Nat → Outcome α} :
    ∀ (is : List Nat) (l : List α), collect f is = .done l →
      ∀ (k i : Nat), is[k]? = some i → ∃ a, f i = .done a ∧ l[k]? = some a := by
  intro is
  induction is with
  | nil => intro l _ k i hk; simp at hk
  | cons j js ih =>
    intro l h k i hk
    unfold collect at h
    obtain ⟨a, ha, h1⟩ := Outcome.bind_done h
    obtain ⟨as, has, h2⟩ := Outcome.bind_done h1
    simp only [Outcome.done.injEq] at h2
    subst h2
    cases k with
    | zero =>
      simp only [List.getElem?_cons_zero, Option.some.injEq] at hk
      subst hk
      exact ⟨a, ha, by simp⟩
    | succ k =>
      simp only [List.getElem?_cons_succ] at hk ⊢
      exact ih as has k i hk

/-- A returning `for` loop holds, at each index, what the body returned there. -/
theorem forRange_done {α : Type} {f : Nat → Outcome α} {n : Nat} {l : List α}
    (h : forRange n f = .done l) (i : Nat) (hi : i < n) :
    ∃ a, f i = .done a ∧ l[i]? = some a :=
  collect_done (List.range n) l h i i (by simp [hi])

/-! ## The claims -/

/-- C7: at the Zone level, for every reference hash, client tree and index, and whatever
the fuel, `GenerateTermini` returns the four-entry vector whose slots 0..2 are empty and
whose slot 3 is the reference hash, and it has looked up no header. -/
theorem zone_short_circuit (fuel : Nat) (sc : SliceClients) (index : Int)
    (hash : common.Hash) :
    GenerateTermini fuel sc common.ZONE_CTX index hash = ⟨.done [0, 0, 0, hash], []⟩ := by
  simp [GenerateTermini, selectClient, common.ZONE_CTX, common.PRIME_CTX,
    common.REGION_CTX, List.replicate]

/-- C3, as stated, fails: with the all-zero reference hash at the Top level, on a store
whose header for the zero hash has genesis as its parent, the call returns a vector whose
slot 3 is `GenesisHash`, not the reference hash. -/
theorem slot3_zero_reference_overwritten :
    (GenerateTermini 2 zeroTree 0 0 0).result
        = .done [GenesisHash, GenesisHash, GenesisHash, GenesisHash] ∧
      [GenesisHash, GenesisHash, GenesisHash, GenesisHash][3]? ≠ some (0 : common.Hash) := by
  constructor
  · rfl
  · simp [GenesisHash]

/-- C3, amended: for every level, client tree, index and reference hash on which
`GenerateTermini` returns, slot 3 of the result is the reference hash, provided the
reference hash is non-zero or the level is neither Top nor Region. -/
theorem slot3_is_reference (fuel : Nat) (sc : SliceClients) (ctx index : Int)
    (hash : common.Hash) (t : List common.Hash)
    (hret : (GenerateTermini fuel sc ctx index hash).result = .done t)
    (hnz : hash ≠ 0 ∨ ¬ (ctx = common.PRIME_CTX ∨ ctx = common.REGION_CTX)) :
    t[3]? = some hash :=
  GenerateTermini_slot3 hret hnz

/-- Witness of C3 (amended): the walk from block 4 of the six-block chain. -/
theorem slot3_is_reference_witness :
    (GenerateTermini 10 sixTree 0 0 4).result = .done [3, 4, 2, 4] ∧
    [3, 4, 2, 4][3]? = some (4 : common.Hash) :=
  ⟨rfl, slot3_is_reference 10 sixTree 0 0 4 [3, 4, 2, 4] rfl (Or.inl (by decide))⟩

/-- C5: at the Top or Region level, whenever `GenerateTermini` returns, the vector has
four entries and none of them is zero. -/
theorem returned_vector_complete (fuel : Nat) (sc : SliceClients) (ctx index : Int)
    (hash : common.Hash) (t : List common.Hash)
    (hctx : ctx = common.PRIME_CTX ∨ ctx = common.REGION_CTX)
    (hret : (GenerateTermini fuel sc ctx index hash).result = .done t) :
    t.length = 4 ∧ ∀ x ∈ t, x ≠ 0 := by
  obtain ⟨client, s0, _, henter, hrun⟩ := GenerateTermini_enter hctx hret
  obtain ⟨_, _, loc, _, _, hs0⟩ := enterLoop_some henter
  rw [hrun] at hret
  obtain ⟨s1, hP, hexit, _⟩ :=
    loop_done_inv (fun s => s.termini.length = 4)
      (fun s s1 hs hb => (loopBody_next_length hb).trans hs) fuel s0 t
      (by show s0.termini.length = 4; rw [hs0]; simp) hret
  have hlen : t.length = 4 := (loopBody_exit_length hexit).trans hP
  refine ⟨hlen, ?_⟩
  rcases loopBody_exit hexit with ⟨hfull, ht⟩ | ⟨_, _, ht⟩
  · rw [ht]
    exact isTerminiFull_nonzero _ hP hfull
  · rw [ht]
    exact fillGenesis_nonzero _

/-- Witness of C5: the walk from the zero hash on `zeroTree` returns a complete vector. -/
theorem returned_vector_complete_witness :
    (GenerateTermini 2 zeroTree 0 0 0).result
        = .done [GenesisHash, GenesisHash, GenesisHash, GenesisHash] ∧
    [GenesisHash, GenesisHash, GenesisHash, GenesisHash].length = 4 ∧
      ∀ x ∈ [GenesisHash, GenesisHash, GenesisHash, GenesisHash], x ≠ 0 :=
  ⟨rfl, returned_vector_complete 2 zeroTree 0 0 0 _ (Or.inl rfl) rfl⟩

/-- C6: for every level, client tree, index and reference hash on which `GenerateTermini`
returns, the result has exactly four entries, and each entry is zero, or the reference
hash, or the hash of a header of the ancestor chain (the reference header, then the
headers at `ParentHash(ctx)`) that the walk has fetched; `GenesisHash` included. -/
theorem vector_shape_and_provenance (fuel : Nat) (sc : SliceClients) (ctx index : Int)
    (hash : common.Hash) (t : List common.Hash)
    (hret : (GenerateTermini fuel sc ctx index hash).result = .done t) :
    t.length = 4 ∧ ∀ x ∈ t, x = 0 ∨ x = hash ∨
      ∃ client j hd, selectClient sc ctx index = some (some client) ∧
        j < (GenerateTermini fuel sc ctx index hash).lookups.length ∧
        chainAt client ctx hash j = some hd ∧ hd.Hash = x := by
  by_cases hctx : ctx = common.PRIME_CTX ∨ ctx = common.REGION_CTX
  · obtain ⟨client, s0, hsel, henter, hrun⟩ := GenerateTermini_enter hctx hret
    rw [hrun] at hret ⊢
    obtain ⟨hlen0, hmem0⟩ := enterLoop_mem henter
    obtain ⟨hl0, hc0⟩ := enterLoop_chain henter
    obtain ⟨s1, ⟨hlen, ⟨k, hk, hpos⟩, hmem⟩, hexit, hlk⟩ :=
      loop_done_inv
        (fun s => s.termini.length = 4 ∧
          (∃ k, s.lookups.length = k + 1 ∧ chainAt client ctx hash k = some s.parent) ∧
          ∀ x ∈ s.termini, x = 0 ∨ x = hash ∨
            ∃ j hd, j < s.lookups.length ∧ chainAt client ctx hash j = some hd ∧ hd.Hash = x)
        (by
          rintro s s1 ⟨hlen, ⟨k, hk, hpos⟩, hmem⟩ hb
          obtain ⟨hk1, hpos1⟩ := loopBody_next_chain hb hk hpos
          refine ⟨(loopBody_next_length hb).trans hlen, ⟨k + 1, hk1, hpos1⟩, ?_⟩
          obtain ⟨_, _, _, _, loc, y, _, _, ht⟩ := loopBody_next hb
          have hold : ∀ x ∈ s.termini, x = 0 ∨ x = hash ∨
              ∃ j hd, j < s1.lookups.length ∧ chainAt client ctx hash j = some hd ∧
                hd.Hash = x := by
            intro x hx
            rcases hmem x hx with h | h | ⟨j, hd, hj, hc, hh⟩
            · exact Or.inl h
            · exact Or.inr (Or.inl h)
            · exact Or.inr (Or.inr ⟨j, hd, by omega, hc, hh⟩)
          intro x hx
          rw [ht] at hx
          split at hx
          · rcases List.mem_or_eq_of_mem_set hx with hx | hx
            · exact hold x hx
            · exact Or.inr (Or.inr ⟨k + 1, s1.parent, by omega, hpos1, hx.symm⟩)
          · exact hold x hx)
        fuel s0 t
        ⟨hlen0, ⟨0, hl0, hc0⟩, fun x hx => (hmem0 x hx).imp_right Or.inl⟩ hret
    refine ⟨(loopBody_exit_length hexit).trans hlen, ?_⟩
    rw [hlk]
    have hold : ∀ x ∈ s1.termini, x = 0 ∨ x = hash ∨
        ∃ client1 j hd, selectClient sc ctx index = some (some client1) ∧
          j < s1.lookups.length ∧ chainAt client1 ctx hash j = some hd ∧ hd.Hash = x := by
      intro x hx
      rcases hmem x hx with h | h | ⟨j, hd, hj, hc, hh⟩
      · exact Or.inl h
      · exact Or.inr (Or.inl h)
      · exact Or.inr (Or.inr ⟨client, j, hd, hsel, hj, hc, hh⟩)
    intro x hx
    rcases loopBody_exit hexit with ⟨_, ht⟩ | ⟨_, hgen, ht⟩
    · rw [ht] at hx
      exact hold x hx
    · rw [ht] at hx
      unfold fillGenesis at hx
      obtain ⟨y, hy, hxy⟩ := List.mem_map.mp hx
      split at hxy
      · exact Or.inr (Or.inr ⟨client, k, s1.parent, hsel, by omega, hpos,
          hgen.trans hxy⟩)
      · subst hxy
        exact hold _ hy
  · unfold GenerateTermini at hret
    cases hsel : selectClient sc ctx index with
    | none => rw [hsel] at hret; simp at hret
    | some oc =>
      rw [hsel] at hret
      simp only [hctx, if_false, Outcome.done.injEq] at hret
      subst hret
      refine ⟨by simp, ?_⟩
      intro x hx
      rcases List.mem_or_eq_of_mem_set hx with hx | hx
      · exact Or.inl (List.eq_of_mem_replicate hx)
      · exact Or.inr (Or.inl hx)

/-- Witness of C6: the walk from block 4 of the six-block chain. -/
theorem vector_shape_and_provenance_witness :
    (GenerateTermini 10 sixTree 0 0 4).result = .done [3, 4, 2, 4] ∧
    [3, 4, 2, 4].length = 4 ∧ ∀ x ∈ [3, 4, 2, 4], x = 0 ∨ x = 4 ∨
      ∃ client j hd, selectClient sixTree 0 0 = some (some client) ∧
        j < (GenerateTermini 10 sixTree 0 0 4).lookups.length ∧
        chainAt client 0 4 j = some hd ∧ hd.Hash = x :=
  ⟨rfl, vector_shape_and_provenance 10 sixTree 0 0 4 [3, 4, 2, 4] rfl⟩

/-- C1, as stated, fails: on `holeClient` (every header fetched for `h` has hash `h`,
every Top location index is below 3) the walk from the non-zero hash 1 returns after
fetching the chain 1, 0, 2, genesis; the first header of the chain on branch 1 is the one
with hash 0, but slot 1 of the result is 2, the hash of a later ancestor. -/
theorem first_on_branch_overwritten :
    (∀ h hd, holeClient.HeaderByHash h = some hd →
      hd.Hash = h ∧ ∃ l, sliceAt hd.Location 0 = some l ∧ l < 3) ∧
    (GenerateTermini 4 holeTree 0 0 1).result = .done [1, 2, GenesisHash, 1] ∧
    (GenerateTermini 4 holeTree 0 0 1).lookups = [1, 0, 2, GenesisHash] ∧
    (chainAt holeClient 0 1 0).map (Header.view 0) = some (1, some 0) ∧
    (chainAt holeClient 0 1 1).map (Header.view 0) = some (0, some 1) ∧
    [1, 2, GenesisHash, 1][1]? ≠ some (0 : common.Hash) := by
  refine ⟨?_, rfl, rfl, rfl, rfl, by simp⟩
  intro h hd hh
  simp only [holeClient] at hh
  split at hh
  · cases hh; subst_vars; exact ⟨rfl, 0, rfl, by decide⟩
  split at hh
  · cases hh; subst_vars; exact ⟨rfl, 1, rfl, by decide⟩
  split at hh
  · cases hh; subst_vars; exact ⟨rfl, 1, rfl, by decide⟩
  split at hh
  · cases hh; subst_vars; exact ⟨rfl, 2, rfl, by decide⟩
  · cases hh

/-- C1, amended: on a client whose header fetched for `h` has hash `h`, at the Top or
Region level, for every reference hash on which the walk returns and every branch index
`i` in [0,3): if header `k` of the ancestor chain, one of the headers the walk fetched,
has location index `i`, no earlier header of the chain has, and its hash is non-zero,
then slot `i` of the result is the hash of that header. -/
theorem nearest_ancestor_slot (fuel : Nat) (sc : SliceClients) (ctx index : Int)
    (hash : common.Hash) (client : QuaiClient) (t : List common.Hash)
    (hctx : ctx = common.PRIME_CTX ∨ ctx = common.REGION_CTX)
    (hsel : selectClient sc ctx index = some (some client))
    (hcons : ∀ h hd, client.HeaderByHash h = some hd → hd.Hash = h)
    (hret : (GenerateTermini fuel sc ctx index hash).result = .done t)
    (i : Nat) (hi : i < 3) (k : Nat) (hd : Header)
    (hk : k < (GenerateTermini fuel sc ctx index hash).lookups.length)
    (hkd : chainAt client ctx hash k = some hd)
    (hloc : sliceAt hd.Location ctx = some i)
    (hfirst : ∀ j hj, j < k → chainAt client ctx hash j = some hj →
      sliceAt hj.Location ctx ≠ some i)
    (hnz : hd.Hash ≠ 0) :
    t[i]? = some hd.Hash :=
  slot_of_first_on_branch hctx hsel (hcons hash) hret i hi k hd hk hkd hloc hfirst hnz

/-- Witness of C1 (amended): on the six-block chain walked from block 4, branch 0 first
occurs at the second header of the chain, block 3. -/
theorem nearest_ancestor_slot_witness :
    (GenerateTermini 10 sixTree 0 0 4).result = .done [3, 4, 2, 4] ∧
    [3, 4, 2, 4][0]? = some (mkHeader 3 2 3 [0, 0]).Hash :=
  ⟨rfl, nearest_ancestor_slot 10 sixTree 0 0 4 sixClient [3, 4, 2, 4] (Or.inl rfl) rfl
    (by
      intro h hd hh
      simp only [sixClient] at hh
      have := List.find?_some hh
      simpa using this)
    rfl 0 (by decide) 1 (mkHeader 3 2 3 [0, 0]) (by decide) rfl rfl
    (by
      intro j hj hlt hc
      have hj0 : j = 0 := by omega
      subst hj0
      cases hc
      decide)
    (by decide)⟩

/-- C2: at the Top or Region level, if at the head of iteration `k` of the walk the
current header has hash `GenesisHash` and the vector is not full, then with fuel for that
many iterations the call returns; every slot that was empty at that point is
`GenesisHash` in the result, every slot that was filled keeps its value, and the lookups
of the whole call are the `k + 1` lookups made up to that point, the last of which
fetched the genesis header, header `k` of the ancestor chain. -/
theorem genesis_fill (fuel : Nat) (sc : SliceClients) (ctx index : Int) (hash : common.Hash)
    (client : QuaiClient) (k : Nat) (s : LoopState)
    (hctx : ctx = common.PRIME_CTX ∨ ctx = common.REGION_CTX)
    (hsel : selectClient sc ctx index = some (some client))
    (hs : walkState client ctx hash k = some s)
    (hgen : s.parent.Hash = GenesisHash) (hnot : isTerminiFull s.termini = false)
    (hfuel : k < fuel) :
    ∃ t : List common.Hash, GenerateTermini fuel sc ctx index hash = ⟨.done t, s.lookups⟩ ∧
      s.lookups.length = k + 1 ∧ chainAt client ctx hash k = some s.parent ∧
      t.length = s.termini.length ∧
      ∀ (j : Nat) (x : common.Hash), s.termini[j]? = some x →
        (x = 0 → t[j]? = some GenesisHash) ∧ (x ≠ 0 → t[j]? = some x) := by
  unfold walkState at hs
  cases henter : enterLoop client ctx hash with
  | none => rw [henter] at hs; cases hs
  | some s0 =>
    rw [henter] at hs
    simp only [Option.some_bind] at hs
    obtain ⟨n, rfl⟩ : ∃ n, fuel = k + (n + 1) := ⟨fuel - k - 1, by omega⟩
    obtain ⟨hl0, hc0⟩ := enterLoop_chain henter
    obtain ⟨hlen, hpos⟩ := stateAfter_chain k 0 s0 s hs hl0 hc0
    rw [Nat.zero_add] at hlen hpos
    have hb : loopBody client ctx s = .exit (fillGenesis s.termini) := by
      unfold loopBody
      simp [hnot, hgen]
    refine ⟨fillGenesis s.termini, ?_, hlen, hpos, by simp [fillGenesis], ?_⟩
    · rw [GenerateTermini_loop _ hctx hsel henter, loop_stateAfter k (n + 1) s0 s hs]
      unfold loop
      rw [hb]
    · intro j x hx
      unfold fillGenesis
      rw [List.getElem?_map, hx]
      constructor
      · intro h0
        simp [h0]
      · intro hne
        simp [hne]

/-- Witness of C2: on the six-block chain walked from block 1, the genesis header is
fetched by the first parent lookup, with slots 1 and 2 still empty. -/
theorem genesis_fill_witness :
    walkState sixClient 0 1 1
        = some ⟨[1, 0, 0, 1], mkHeader GenesisHash 0 0 [0, 0], [1, GenesisHash]⟩ ∧
    ∃ t : List common.Hash, GenerateTermini 2 sixTree 0 0 1 = ⟨.done t, [1, GenesisHash]⟩ ∧
      [1, GenesisHash].length = 1 + 1 ∧
      chainAt sixClient 0 1 1 = some (mkHeader GenesisHash 0 0 [0, 0]) ∧
      t.length = [1, 0, 0, 1].length ∧
      ∀ (j : Nat) (x : common.Hash), [1, 0, 0, 1][j]? = some x →
        (x = 0 → t[j]? = some GenesisHash) ∧ (x ≠ 0 → t[j]? = some x) :=
  ⟨rfl, genesis_fill 2 sixTree 0 0 1 sixClient 1
    ⟨[1, 0, 0, 1], mkHeader GenesisHash 0 0 [0, 0], [1, GenesisHash]⟩
    (Or.inl rfl) rfl rfl rfl rfl (by decide)⟩

/-- C8: at the Top or Region level, if header `k` of the ancestor chain of the reference
hash exists (so every lookup on the way to it succeeds) and has hash `GenesisHash`, then
with fuel for `k + 1` iterations the call ends, by returning or by a panic, and it has
looked up at most `k + 1` headers. -/
theorem terminates_when_genesis_reachable (fuel : Nat) (sc : SliceClients) (ctx index : Int)
    (hash : common.Hash) (client : QuaiClient) (k : Nat) (g : Header)
    (hctx : ctx = common.PRIME_CTX ∨ ctx = common.REGION_CTX)
    (hsel : selectClient sc ctx index = some (some client))
    (hg : chainAt client ctx hash k = some g) (hgen : g.Hash = GenesisHash)
    (hfuel : k < fuel) :
    (GenerateTermini fuel sc ctx index hash).result ≠ .timeout ∧
      (GenerateTermini fuel sc ctx index hash).lookups.length ≤ k + 1 := by
  cases henter : enterLoop client ctx hash with
  | none =>
    unfold GenerateTermini
    rw [hsel]
    simp [hctx, henter]
  | some s0 =>
    rw [GenerateTermini_loop fuel hctx hsel henter]
    obtain ⟨hl0, hc0⟩ := enterLoop_chain henter
    exact loop_reaches_genesis hg hgen k 0 fuel s0 (by omega) hfuel hl0 hc0

/-- Witness of C8: from block 4 of the six-block chain genesis is four steps away. -/
theorem terminates_when_genesis_reachable_witness :
    chainAt sixClient 0 4 4 = some (mkHeader GenesisHash 0 0 [0, 0]) ∧
    (GenerateTermini 5 sixTree 0 0 4).result ≠ .timeout ∧
      (GenerateTermini 5 sixTree 0 0 4).lookups.length ≤ 4 + 1 :=
  ⟨rfl, terminates_when_genesis_reachable 5 sixTree 0 0 4 sixClient 4
    (mkHeader GenesisHash 0 0 [0, 0]) (Or.inl rfl) rfl rfl rfl (by decide)⟩

/-- C9, as stated, fails: on `cycleClient`, whose header of hash 1 is its own parent, the
walk from hash 1 at the Top level neither returns nor reports a failure within any number
of iterations. -/
theorem cyclic_walk_never_stops :
    ¬ ∃ fuel, (GenerateTermini fuel cycleTree 0 0 1).result ≠ .timeout := by
  rintro ⟨fuel, h⟩
  have hstuck : (GenerateTermini fuel cycleTree 0 0 1).result = .timeout :=
    GenerateTermini_never_exits (Or.inl rfl)
      (rfl : selectClient cycleTree 0 0 = some (some cycleClient)) (by decide)
      cycle_chain_stuck fuel
  exact h hstuck

/-- C9, amended: `GenerateTermini` has no step ceiling. At the Top or Region level, on a
chain on which every lookup succeeds with a location index below 4, no header has hash
`GenesisHash`, and some branch `i` in [0,3) never occurs, the walk does not stop within
any number of iterations: it neither returns nor reports a failure. -/
theorem walk_unbounded_without_genesis (sc : SliceClients) (ctx index : Int)
    (hash : common.Hash) (client : QuaiClient) (i : Nat)
    (hctx : ctx = common.PRIME_CTX ∨ ctx = common.REGION_CTX)
    (hsel : selectClient sc ctx index = some (some client)) (hi : i < 3)
    (hchain : ∀ j, ∃ hd loc, chainAt client ctx hash j = some hd ∧ hd.Hash ≠ GenesisHash ∧
      sliceAt hd.Location ctx = some loc ∧ loc < 4 ∧ loc ≠ i) :
    ∀ fuel, (GenerateTermini fuel sc ctx index hash).result = .timeout :=
  fun fuel => GenerateTermini_never_exits hctx hsel hi hchain fuel

/-- Witness of C9 (amended): the cyclic store, on which branch 1 never occurs, with fuel
for a thousand iterations. -/
theorem walk_unbounded_without_genesis_witness :
    (GenerateTermini 1000 cycleTree 0 0 1).result = .timeout :=
  walk_unbounded_without_genesis cycleTree 0 0 1 cycleClient 1 (Or.inl rfl) rfl (by decide)
    cycle_chain_stuck 1000

/-- C4, as stated, fails: on the six-block chain (block 0 genesis, blocks 4 and 5 on
branch 1) with block 5 as the bad block, the seed is the parent hash of block 5, that is
block 4, and slot 1 of the Top vector is the hash of block 4, not the hash of block 3. -/
theorem scenario_slot1_is_block4 :
    sixBlocks.map (Header.view 0)
        = [(GenesisHash, some 0), (1, some 0), (2, some 2), (3, some 0), (4, some 1),
            (5, some 1)] ∧
    (sixClient.HeaderByHash 5).map (fun b => b.ParentHash common.PRIME_CTX) = some 4 ∧
    (GenerateTermini 10 sixTree common.PRIME_CTX 0 4).result = .done [3, 4, 2, 4] ∧
    [3, 4, 2, 4][1]? = some (4 : common.Hash) ∧
    [3, 4, 2, 4][1]? ≠ some (3 : common.Hash) := by
  refine ⟨rfl, rfl, rfl, rfl, by simp⟩

/-- C4, amended: on a Top store whose chain is block 5, block 4, ..., block 0 along the
Top-level parent hash, where block 0 has hash `GenesisHash`, blocks 1..4 have non-zero
hashes other than `GenesisHash`, block 4 has Top location index 1 and is the header
fetched for its own hash, and blocks 0..3 have location indices below 3: with fuel for
five iterations, `GenerateTermini` at the Top level on the Top-level parent hash of
block 5 returns a vector whose slots 1 and 3 are the hash of block 4, and whose slot `i`,
for `i` = 0 and 2, is the hash of the nearest of blocks 3, 2, 1 on branch `i`, or
`GenesisHash` when none of them is on branch `i`. -/
theorem six_block_scenario (fuel : Nat) (sc : SliceClients) (client : QuaiClient)
    (b0 b1 b2 b3 b4 b5 : Header) (l0 l1 l2 l3 : Nat)
    (hsel : sc.PrimeClient.Client = some client)
    (h4 : client.HeaderByHash (b5.ParentHash common.PRIME_CTX) = some b4)
    (h3 : client.HeaderByHash (b4.ParentHash common.PRIME_CTX) = some b3)
    (h2 : client.HeaderByHash (b3.ParentHash common.PRIME_CTX) = some b2)
    (h1 : client.HeaderByHash (b2.ParentHash common.PRIME_CTX) = some b1)
    (h0 : client.HeaderByHash (b1.ParentHash common.PRIME_CTX) = some b0)
    (e4 : b4.Hash = b5.ParentHash common.PRIME_CTX)
    (hgen : b0.Hash = GenesisHash)
    (n1 : b1.Hash ≠ GenesisHash) (n2 : b2.Hash ≠ GenesisHash) (n3 : b3.Hash ≠ GenesisHash)
    (n4 : b4.Hash ≠ GenesisHash)
    (z1 : b1.Hash ≠ 0) (z2 : b2.Hash ≠ 0) (z3 : b3.Hash ≠ 0) (z4 : b4.Hash ≠ 0)
    (p4 : sliceAt b4.Location common.PRIME_CTX = some 1)
    (p3 : sliceAt b3.Location common.PRIME_CTX = some l3)
    (p2 : sliceAt b2.Location common.PRIME_CTX = some l2)
    (p1 : sliceAt b1.Location common.PRIME_CTX = some l1)
    (p0 : sliceAt b0.Location common.PRIME_CTX = some l0)
    (r3 : l3 < 3) (r2 : l2 < 3) (r1 : l1 < 3) (r0 : l0 < 3)
    (hfuel : 5 ≤ fuel) :
    ∃ t : List common.Hash,
      (GenerateTermini fuel sc common.PRIME_CTX 0
        (b5.ParentHash common.PRIME_CTX)).result = .done t ∧
      t[1]? = some b4.Hash ∧ t[3]? = some b4.Hash ∧
      ∀ i : Nat, i = 0 ∨ i = 2 → t[i]? = some
        (if l3 = i then b3.Hash else if l2 = i then b2.Hash
          else if l1 = i then b1.Hash else GenesisHash) := by
  have hctx : common.PRIME_CTX = common.PRIME_CTX ∨ common.PRIME_CTX = common.REGION_CTX :=
    Or.inl rfl
  have hs : selectClient sc common.PRIME_CTX 0 = some (some client) := by
    simp [selectClient, hsel]
  have c0 : chainAt client common.PRIME_CTX (b5.ParentHash common.PRIME_CTX) 0 = some b4 := h4
  have c1 : chainAt client common.PRIME_CTX (b5.ParentHash common.PRIME_CTX) 1 = some b3 := by
    show (chainAt client common.PRIME_CTX (b5.ParentHash common.PRIME_CTX) 0).bind _ = _
    rw [c0]; exact h3
  have c2 : chainAt client common.PRIME_CTX (b5.ParentHash common.PRIME_CTX) 2 = some b2 := by
    show (chainAt client common.PRIME_CTX (b5.ParentHash common.PRIME_CTX) 1).bind _ = _
    rw [c1]; exact h2
  have c3 : chainAt client common.PRIME_CTX (b5.ParentHash common.PRIME_CTX) 3 = some b1 := by
    show (chainAt client common.PRIME_CTX (b5.ParentHash common.PRIME_CTX) 2).bind _ = _
    rw [c2]; exact h1
  have c4 : chainAt client common.PRIME_CTX (b5.ParentHash common.PRIME_CTX) 4 = some b0 := by
    show (chainAt client common.PRIME_CTX (b5.ParentHash common.PRIME_CTX) 3).bind _ = _
    rw [c3]; exact h0
  have hvalid : ∀ j hd, j ≤ 4 →
      chainAt client common.PRIME_CTX (b5.ParentHash common.PRIME_CTX) j = some hd →
      ∃ loc, sliceAt hd.Location common.PRIME_CTX = some loc ∧ loc < 4 := by
    intro j hd hj hc
    interval_cases j
    · rw [c0] at hc; cases hc; exact ⟨1, p4, by omega⟩
    · rw [c1] at hc; cases hc; exact ⟨l3, p3, by omega⟩
    · rw [c2] at hc; cases hc; exact ⟨l2, p2, by omega⟩
    · rw [c3] at hc; cases hc; exact ⟨l1, p1, by omega⟩
    · rw [c4] at hc; cases hc; exact ⟨l0, p0, by omega⟩
  obtain ⟨⟨t, hret⟩, hlen⟩ := GenerateTermini_returns hctx hs c4 hgen hvalid (show 4 < fuel by omega)
  obtain ⟨m, g, hm, hmg, _⟩ := GenerateTermini_stop hctx hs hret
  have hcons : ∀ hd, client.HeaderByHash (b5.ParentHash common.PRIME_CTX) = some hd →
      hd.Hash = b5.ParentHash common.PRIME_CTX := by
    intro hd hh
    rw [h4] at hh
    cases hh
    exact e4
  refine ⟨t, hret, ?_, ?_, ?_⟩
  · exact slot_of_first_on_branch hctx hs hcons hret 1 (by omega) 0 b4 (by omega) c0 p4
      (fun j _ hj _ => absurd hj (Nat.not_lt_zero j)) z4
  · rw [e4]
    exact GenerateTermini_slot3 hret (Or.inl (e4 ▸ z4))
  · intro i hi
    have hi3 : i < 3 := by omega
    have hi1 : (1 : Nat) ≠ i := by omega
    by_cases hab : ∀ j hj,
        j < (GenerateTermini fuel sc common.PRIME_CTX 0
          (b5.ParentHash common.PRIME_CTX)).lookups.length →
        chainAt client common.PRIME_CTX (b5.ParentHash common.PRIME_CTX) j = some hj →
        sliceAt hj.Location common.PRIME_CTX ≠ some i
    · obtain ⟨hslot, m1, g1, hm1, hg1, hgen1⟩ :=
        slot_of_absent_branch hctx hs hret i hi3 hab
      have hm4 : m1 = 4 := by
        have hle : m1 ≤ 4 := by omega
        interval_cases m1
        · rw [c0] at hg1; cases hg1; exact absurd hgen1 n4
        · rw [c1] at hg1; cases hg1; exact absurd hgen1 n3
        · rw [c2] at hg1; cases hg1; exact absurd hgen1 n2
        · rw [c3] at hg1; cases hg1; exact absurd hgen1 n1
        · rfl
      subst hm4
      have a3 : l3 ≠ i := fun h => hab 1 b3 (by omega) c1 (by rw [p3, h])
      have a2 : l2 ≠ i := fun h => hab 2 b2 (by omega) c2 (by rw [p2, h])
      have a1 : l1 ≠ i := fun h => hab 3 b1 (by omega) c3 (by rw [p1, h])
      rw [hslot]
      simp [a3, a2, a1]
    · push_neg at hab
      obtain ⟨j, hj, hjlt, hjc, hjloc⟩ := hab
      have key : ∀ k hd,
          chainAt client common.PRIME_CTX (b5.ParentHash common.PRIME_CTX) k = some hd →
          sliceAt hd.Location common.PRIME_CTX = some i → hd.Hash ≠ 0 →
          (∀ j1 hj1, j1 < k →
            chainAt client common.PRIME_CTX (b5.ParentHash common.PRIME_CTX) j1 = some hj1 →
            sliceAt hj1.Location common.PRIME_CTX ≠ some i) →
          t[i]? = some hd.Hash := by
        intro k hd hkc hkl hkz hfirst
        have hkj : k ≤ j := by
          by_contra hlt
          exact hfirst j hj (by omega) hjc hjloc
        exact slot_of_first_on_branch hctx hs hcons hret i hi3 k hd (by omega) hkc hkl
          hfirst hkz
      have f0 : sliceAt b4.Location common.PRIME_CTX ≠ some i := by
        rw [p4]; simpa using hi1
      by_cases a3 : l3 = i
      · rw [key 1 b3 c1 (by rw [p3, a3]) z3 (by
          intro j1 hj1 hlt hc
          interval_cases j1
          rw [c0] at hc; cases hc; exact f0)]
        simp [a3]
      have f1 : sliceAt b3.Location common.PRIME_CTX ≠ some i := by
        rw [p3]; simpa using a3
      by_cases a2 : l2 = i
      · rw [key 2 b2 c2 (by rw [p2, a2]) z2 (by
          intro j1 hj1 hlt hc
          interval_cases j1
          · rw [c0] at hc; cases hc; exact f0
          · rw [c1] at hc; cases hc; exact f1)]
        simp [a3, a2]
      have f2 : sliceAt b2.Location common.PRIME_CTX ≠ some i := by
        rw [p2]; simpa using a2
      by_cases a1 : l1 = i
      · rw [key 3 b1 c3 (by rw [p1, a1]) z1 (by
          intro j1 hj1 hlt hc
          interval_cases j1
          · rw [c0] at hc; cases hc; exact f0
          · rw [c1] at hc; cases hc; exact f1
          · rw [c2] at hc; cases hc; exact f2)]
        simp [a3, a2, a1]
      have f3 : sliceAt b1.Location common.PRIME_CTX ≠ some i := by
        rw [p1]; simpa using a1
      have hj4 : j = 4 := by
        have hle : j ≤ 4 := by omega
        interval_cases j
        · rw [c0] at hjc; cases hjc; exact absurd hjloc f0
        · rw [c1] at hjc; cases hjc; exact absurd hjloc f1
        · rw [c2] at hjc; cases hjc; exact absurd hjloc f2
        · rw [c3] at hjc; cases hjc; exact absurd hjloc f3
        · rfl
      subst hj4
      rw [c4] at hjc
      have hE : b0 = hj := Option.some.inj hjc
      rw [← hE] at hjloc
      rw [key 4 b0 c4 hjloc (by rw [hgen]; exact GenesisHash_ne_zero) (by
        intro j1 hj1 hlt hc
        interval_cases j1
        · rw [c0] at hc; cases hc; exact f0
        · rw [c1] at hc; cases hc; exact f1
        · rw [c2] at hc; cases hc; exact f2
        · rw [c3] at hc; cases hc; exact f3)]
      simp [a3, a2, a1, hgen]

/-- Witness of C4 (amended): the six-block chain, whose blocks 3, 2, 1, 0 lie on
branches 0, 2, 0, 0. -/
theorem six_block_scenario_witness :
    ∃ t : List common.Hash,
      (GenerateTermini 10 sixTree common.PRIME_CTX 0
        ((mkHeader 5 4 5 [1, 0]).ParentHash common.PRIME_CTX)).result = .done t ∧
      t[1]? = some (mkHeader 4 3 4 [1, 0]).Hash ∧ t[3]? = some (mkHeader 4 3 4 [1, 0]).Hash ∧
      ∀ i : Nat, i = 0 ∨ i = 2 → t[i]? = some
        (if 0 = i then (mkHeader 3 2 3 [0, 0]).Hash
          else if 2 = i then (mkHeader 2 1 2 [2, 0]).Hash
          else if 0 = i then (mkHeader 1 GenesisHash 1 [0, 0]).Hash else GenesisHash) :=
  six_block_scenario 10 sixTree sixClient (mkHeader GenesisHash 0 0 [0, 0])
    (mkHeader 1 GenesisHash 1 [0, 0]) (mkHeader 2 1 2 [2, 0]) (mkHeader 3 2 3 [0, 0])
    (mkHeader 4 3 4 [1, 0]) (mkHeader 5 4 5 [1, 0]) 0 0 2 0
    rfl rfl rfl rfl rfl rfl rfl rfl
    (by simp [mkHeader, GenesisHash]) (by simp [mkHeader, GenesisHash])
    (by simp [mkHeader, GenesisHash]) (by simp [mkHeader, GenesisHash])
    (by simp [mkHeader]) (by simp [mkHeader]) (by simp [mkHeader]) (by simp [mkHeader])
    rfl rfl rfl rfl rfl (by decide) (by decide) (by decide) (by decide) (by decide)

/-! ## The propagation, entry by entry -/

/-- A returning `collect` has one result for each index. -/
theorem collect_length {α : Type} {f : Nat → Outcome α} :
    ∀ (is : List Nat) (l : List α), collect f is = .done l → l.length = is.length := by
  intro is
  induction is with
  | nil =>
    intro l h
    simp only [collect, Outcome.done.injEq] at h
    subst h
    rfl
  | cons j js ih =>
    intro l h
    unfold collect at h
    obtain ⟨a, _, h1⟩ := Outcome.bind_done h
    obtain ⟨as, has, h2⟩ := Outcome.bind_done h1
    simp only [Outcome.done.injEq] at h2
    subst h2
    simp [ih as has]

/-- A returning `for` loop over `n` indices fills `n` slots. -/
theorem forRange_length {α : Type} {f : Nat → Outcome α} {n : Nat} {l : List α}
    (h : forRange n f = .done l) : l.length = n := by
  have := collect_length (List.range n) l h
  simpa using this

/-- A completed propagation completed its three stages. -/
theorem propagate_done {fuel : Nat} {sc : SliceClients} {primeBadHash : common.Hash}
    {rb : List common.Hash} {zb : List (List common.Hash)}
    (h : propagate fuel sc primeBadHash = .done (rb, zb)) :
    ∃ top rt, mainTermini fuel sc primeBadHash = .done (top, rt) ∧
      mainRegionBadHashes sc top = .done rb ∧ mainZoneBadHashes sc rt = .done zb := by
  unfold propagate at h
  obtain ⟨termini, hterm, h1⟩ := Outcome.bind_done h
  obtain ⟨rb1, hrb, h2⟩ := Outcome.bind_done h1
  obtain ⟨zb1, hzb, h3⟩ := Outcome.bind_done h2
  simp only [Outcome.done.injEq, Prod.mk.injEq] at h3
  obtain ⟨e1, e2⟩ := h3
  subst e1 e2
  exact ⟨termini.1, termini.2, hterm, hrb, hzb⟩

/-- What the first stage did: the bad header was fetched from the Top client, the Top
vector computed from its parent hash, and the Region vector `i` from slot `i` of it. -/
theorem mainTermini_done {fuel : Nat} {sc : SliceClients} {primeBadHash : common.Hash}
    {top : List common.Hash} {rt : List (List common.Hash)}
    (h : mainTermini fuel sc primeBadHash = .done (top, rt)) :
    ∃ prime hdr, sc.PrimeClient.Client = some prime ∧
      prime.HeaderByHash primeBadHash = some hdr ∧
      (GenerateTermini fuel sc 0 0 (hdr.ParentHash common.PRIME_CTX)).result = .done top ∧
      rt.length = 3 ∧
      ∀ i : Nat, i < 3 → ∃ t ts, top[i]? = some t ∧
        (GenerateTermini fuel sc 1 i t).result = .done ts ∧ rt[i]? = some ts := by
  unfold mainTermini at h
  obtain ⟨prime, hprime, g1⟩ := Outcome.bind_done h
  obtain ⟨hdr, hhdr, g2⟩ := Outcome.bind_done g1
  obtain ⟨top1, htop, g3⟩ := Outcome.bind_done g2
  obtain ⟨rt1, hrt, g4⟩ := Outcome.bind_done g3
  simp only [Outcome.done.injEq, Prod.mk.injEq] at g4
  obtain ⟨e1, e2⟩ := g4
  subst e1 e2
  refine ⟨prime, hdr, orCrash_done hprime, orCrash_done hhdr, htop, forRange_length hrt, ?_⟩
  intro i hi
  obtain ⟨ts, hts, hidx⟩ := forRange_done hrt i hi
  obtain ⟨t, ht, hgt⟩ := Outcome.bind_done hts
  exact ⟨t, ts, orCrash_done ht, hgt, hidx⟩

/-- What a successful `nextHash` did. -/
theorem nextHash_some {node : NodeClient} {ctx : Int} {t h : common.Hash}
    (hn : nextHash node ctx t = some h) :
    ∃ client th nh, node.Client = some client ∧ client.HeaderByHash t = some th ∧
      client.HeaderByNumber (heightArg (th.NumberU64 ctx)) = some nh ∧ h = nh.Hash := by
  unfold nextHash at hn
  cases hc : node.Client with
  | none => rw [hc] at hn; cases hn
  | some client =>
    rw [hc] at hn
    simp only at hn
    cases hth : client.HeaderByHash t with
    | none => rw [hth] at hn; cases hn
    | some th =>
      rw [hth] at hn
      simp only at hn
      cases hnh : client.HeaderByNumber (heightArg (th.NumberU64 ctx)) with
      | none => rw [hnh] at hn; cases hn
      | some nh =>
        rw [hnh] at hn
        simp only [Option.map_some', Option.some.injEq] at hn
        exact ⟨client, th, nh, rfl, hth, hnh, hn.symm⟩

/-- What the second stage did, for each region. -/
theorem mainRegionBadHashes_done {sc : SliceClients} {top rb : List common.Hash}
    (h : mainRegionBadHashes sc top = .done rb) :
    rb.length = 3 ∧ ∀ i : Nat, i < 3 → ∃ node t x, sc.RegionClients[i]? = some node ∧
      top[i]? = some t ∧ nextHash node common.REGION_CTX t = some x ∧ rb[i]? = some x := by
  unfold mainRegionBadHashes at h
  refine ⟨forRange_length h, ?_⟩
  intro i hi
  obtain ⟨x, hx, hidx⟩ := forRange_done h i hi
  obtain ⟨node, hnode, k1⟩ := Outcome.bind_done hx
  obtain ⟨t, ht, k2⟩ := Outcome.bind_done k1
  exact ⟨node, t, x, orCrash_done hnode, orCrash_done ht, orCrash_done k2, hidx⟩

/-- What the third stage did, for each zone of each region. -/
theorem mainZoneBadHashes_done {sc : SliceClients} {rt zb : List (List common.Hash)}
    (h : mainZoneBadHashes sc rt = .done zb) :
    zb.length = 3 ∧ ∀ i : Nat, i < 3 → ∃ zrow, zb[i]? = some zrow ∧ zrow.length = 3 ∧
      ∀ j : Nat, j < 3 → ∃ row node ts t x, sc.ZoneClients[i]? = some row ∧
        row[j]? = some node ∧ rt[i]? = some ts ∧ ts[j]? = some t ∧
        nextHash node common.ZONE_CTX t = some x ∧ zrow[j]? = some x := by
  unfold mainZoneBadHashes at h
  refine ⟨forRange_length h, ?_⟩
  intro i hi
  obtain ⟨zrow, hzrow, hidx⟩ := forRange_done h i hi
  refine ⟨zrow, hidx, forRange_length hzrow, ?_⟩
  intro j hj
  obtain ⟨x, hx, hjdx⟩ := forRange_done hzrow j hj
  obtain ⟨row, hrow, k1⟩ := Outcome.bind_done hx
  obtain ⟨node, hnode, k2⟩ := Outcome.bind_done k1
  obtain ⟨ts, hts, k3⟩ := Outcome.bind_done k2
  obtain ⟨t, ht, k4⟩ := Outcome.bind_done k3
  exact ⟨row, node, ts, t, x, orCrash_done hrow, orCrash_done hnode, orCrash_done hts,
    orCrash_done ht, orCrash_done k4, hjdx⟩

/-! ## The client pool, one dial at a time -/

/-- The conjunction of two flags that are there. -/
theorem goAnd_some (a b : Bool) : goAnd (some a) (some b) = some (a && b) := by
  cases a <;> rfl

/-- The thirteen endpoints of a sweep, in order. -/
theorem sweepOrder_eq : sweepOrder =
    [.prime, .region 0, .zone 0 0, .zone 0 1, .zone 0 2, .region 1, .zone 1 0, .zone 1 1,
      .zone 1 2, .region 2, .zone 2 0, .zone 2 1, .zone 2 2] := by
  rfl

/-- On a pool with three regions and three by three zones, `allNodesConnected` does not
panic and is true exactly when the flag of each of the thirteen endpoints is true. -/
theorem allNodesConnected_spec (sc : SliceClients) (hr : sc.RegionClients.length = 3)
    (hz : sc.ZoneClients.length = 3) (hrows : ∀ row ∈ sc.ZoneClients, row.length = 3) :
    ∃ b, allNodesConnected sc = some b ∧
      (b = true ↔ ∀ e ∈ sweepOrder, (getNode sc e).map (fun n => n.Connected) = some true) := by
  obtain ⟨p, rs, zs⟩ := sc
  simp only at hr hz hrows
  match rs, hr with
  | [r0, r1, r2], _ =>
    match zs, hz with
    | [w0, w1, w2], _ =>
      have h0 := hrows w0 (by simp)
      have h1 := hrows w1 (by simp)
      have h2 := hrows w2 (by simp)
      match w0, h0, w1, h1, w2, h2 with
      | [a0, a1, a2], _, [b0, b1, b2], _, [c0, c1, c2], _ =>
        refine ⟨p.Connected && r0.Connected && r1.Connected && r2.Connected &&
          a0.Connected && a1.Connected && a2.Connected && b0.Connected && b1.Connected &&
          b2.Connected && c0.Connected && c1.Connected && c2.Connected, ?_, ?_⟩
        · simp [allNodesConnected, regionConnected, zoneConnected, goAnd_some]
        · rw [sweepOrder_eq]
          simp only [getNode, List.forall_mem_cons, List.not_mem_nil, Bool.and_eq_true]
          simp
          tauto

/-- Replacing the entry of one endpoint leaves the entries of the others alone. -/
theorem getNode_setNode_ne (sc : SliceClients) (e e1 : Endpoint) (n : NodeClient)
    (h : e1 ≠ e) : getNode (setNode sc e n) e1 = getNode sc e1 := by
  cases e with
  | prime =>
    cases e1 with
    | prime => exact absurd rfl h
    | region i1 => rfl
    | zone i1 j1 => rfl
  | region i =>
    cases e1 with
    | prime => rfl
    | region i1 =>
      have hne : i ≠ i1 := fun hEq => h (by rw [hEq])
      simp only [getNode, setNode]
      exact List.getElem?_set_ne hne
    | zone i1 j1 => rfl
  | zone i j =>
    cases e1 with
    | prime => rfl
    | region i1 => rfl
    | zone i1 j1 =>
      simp only [getNode, setNode]
      by_cases hi : i = i1
      · subst hi
        have hj : j ≠ j1 := fun hEq => h (by rw [hEq])
        by_cases hlt : i < sc.ZoneClients.length
        · rw [List.getElem?_set_self hlt, List.getElem?_eq_getElem hlt]
          simp only [Option.some_bind]
          rw [List.getElem?_set_ne hj]
          simp [List.getD_eq_getElem?_getD, List.getElem?_eq_getElem hlt]
        · rw [List.getElem?_eq_none (by simpa using hlt),
            List.getElem?_eq_none (by simpa using hlt)]
      · rw [List.getElem?_set_ne hi]

/-- Replacing the entry of an endpoint that is there puts the new entry there. -/
theorem getNode_setNode_self (sc : SliceClients) (e : Endpoint) (n node : NodeClient)
    (h : getNode sc e = some node) : getNode (setNode sc e n) e = some n := by
  cases e with
  | prime => rfl
  | region i =>
    simp only [getNode, setNode] at h ⊢
    have hlt : i < sc.RegionClients.length := by
      by_contra hge
      rw [List.getElem?_eq_none (by omega)] at h
      cases h
    exact List.getElem?_set_self hlt
  | zone i j =>
    simp only [getNode, setNode] at h ⊢
    have hlt : i < sc.ZoneClients.length := by
      by_contra hge
      rw [List.getElem?_eq_none (by omega)] at h
      cases h
    rw [List.getElem?_eq_getElem hlt] at h
    simp only [Option.some_bind] at h
    have hjlt : j < (sc.ZoneClients[i]).length := by
      by_contra hge
      rw [List.getElem?_eq_none (by omega)] at h
      cases h
    rw [List.getElem?_set_self hlt]
    simp only [Option.some_bind]
    have hrow : sc.ZoneClients.getD i [] = sc.ZoneClients[i] := by
      simp [List.getD_eq_getElem?_getD, List.getElem?_eq_getElem hlt]
    rw [hrow]
    exact List.getElem?_set_self hjlt

/-- What one dial statement did. -/
theorem dialEndpoint_done {Dial : Nat → String → Option QuaiClient} {config : Config}
    {e : Endpoint} {st st1 : DialState} (h : dialEndpoint Dial config e st = .done st1) :
    ∃ url node, e.url config = some url ∧ getNode st.clients e = some node ∧
      st1.clients = setNode st.clients e
        ⟨Dial st.attempts url, if (Dial st.attempts url).isSome then true else node.Connected⟩ ∧
      st1.attempts = st.attempts + 1 ∧
      st1.log = st.log ++ [⟨e, node.Connected, (Dial st.attempts url).isSome⟩] := by
  unfold dialEndpoint at h
  cases hu : e.url config with
  | none => rw [hu] at h; cases h
  | some url =>
    rw [hu] at h
    simp only at h
    cases hn : getNode st.clients e with
    | none => rw [hn] at h; cases h
    | some node =>
      rw [hn] at h
      simp only [Outcome.done.injEq] at h
      subst h
      exact ⟨url, node, rfl, rfl, rfl, rfl, rfl⟩

/-- Replacing an entry keeps the shape of the pool. -/
theorem setNode_shape (sc : SliceClients) (e : Endpoint) (n : NodeClient)
    (h : PoolShape sc) : PoolShape (setNode sc e n) := by
  obtain ⟨hr, hz, hrows⟩ := h
  cases e with
  | prime => exact ⟨hr, hz, hrows⟩
  | region i => exact ⟨by simp [setNode, hr], hz, hrows⟩
  | zone i j =>
    refine ⟨hr, by simp [setNode, hz], ?_⟩
    intro row hrow
    simp only [setNode] at hrow
    by_cases hlt : i < sc.ZoneClients.length
    · rcases List.mem_or_eq_of_mem_set hrow with hmem | hEq
      · exact hrows row hmem
      · rw [hEq, List.length_set]
        have hrowi : sc.ZoneClients.getD i [] = sc.ZoneClients[i] := by
          simp [List.getD_eq_getElem?_getD, List.getElem?_eq_getElem hlt]
        rw [hrowi]
        exact hrows _ (List.getElem_mem hlt)
    · rw [List.set_eq_of_length_le (by omega)] at hrow
      exact hrows row hrow

/-- The fresh pool has the shape, and no endpoint of it is marked connected. -/
theorem NewSliceClients_spec :
    PoolShape NewSliceClients ∧ ∀ e, connectedFlag NewSliceClients e ≠ some true := by
  constructor
  · refine ⟨rfl, rfl, ?_⟩
    intro row hrow
    simp only [NewSliceClients] at hrow
    rw [List.eq_of_mem_replicate hrow]
    rfl
  · intro e
    cases e with
    | prime => simp [connectedFlag, getNode, NewSliceClients]
    | region i =>
      simp only [connectedFlag, getNode, NewSliceClients]
      intro h
      obtain ⟨n, hn, hc⟩ := Option.map_eq_some'.mp h
      have := List.getElem?_mem hn
      rw [List.eq_of_mem_replicate this] at hc
      cases hc
    | zone i j =>
      simp only [connectedFlag, getNode, NewSliceClients]
      intro h
      obtain ⟨n, hn, hc⟩ := Option.map_eq_some'.mp h
      obtain ⟨row, hrow, hnrow⟩ := Option.bind_eq_some.mp hn
      have hr := List.getElem?_mem hrow
      rw [List.eq_of_mem_replicate hr] at hnrow
      have := List.getElem?_mem hnrow
      rw [List.eq_of_mem_replicate this] at hc
      cases hc

/-- A dial statement never clears a flag. -/
theorem dialEndpoint_flag_mono {Dial : Nat → String → Option QuaiClient} {config : Config}
    {e : Endpoint} {st st1 : DialState} (h : dialEndpoint Dial config e st = .done st1)
    (e1 : Endpoint) (hf : connectedFlag st.clients e1 = some true) :
    connectedFlag st1.clients e1 = some true := by
  obtain ⟨url, node, _, hnode, hcl, _, _⟩ := dialEndpoint_done h
  unfold connectedFlag at hf ⊢
  rw [hcl]
  by_cases he : e1 = e
  · subst he
    rw [getNode_setNode_self _ _ _ node hnode]
    rw [hnode] at hf
    simp only [Option.map_some', Option.some.injEq] at hf ⊢
    simp [hf]
  · rw [getNode_setNode_ne _ _ _ _ he]
    exact hf

/-- A flag that is set after a dial statement was set before, or the dial succeeded. -/
theorem dialEndpoint_flag_source {Dial : Nat → String → Option QuaiClient} {config : Config}
    {e : Endpoint} {st st1 : DialState} (h : dialEndpoint Dial config e st = .done st1)
    (e1 : Endpoint) (hf : connectedFlag st1.clients e1 = some true) :
    connectedFlag st.clients e1 = some true ∨ dialedOk st1.log e1 := by
  obtain ⟨url, node, _, hnode, hcl, _, hlog⟩ := dialEndpoint_done h
  unfold connectedFlag at hf ⊢
  rw [hcl] at hf
  by_cases he : e1 = e
  · subst he
    rw [getNode_setNode_self _ _ _ node hnode] at hf
    simp only [Option.map_some', Option.some.injEq] at hf
    by_cases hok : (Dial st.attempts url).isSome = true
    · right
      refine ⟨⟨e1, node.Connected, (Dial st.attempts url).isSome⟩, ?_, rfl, hok⟩
      rw [hlog]
      simp
    · left
      rw [hnode]
      simp only [hok, Bool.false_eq_true, if_false] at hf
      simp [hf]
  · rw [getNode_setNode_ne _ _ _ _ he] at hf
    exact Or.inl hf

/-- A property that every dial statement keeps is kept by a list of dial statements. -/
theorem dialAll_inv {Dial : Nat → String → Option QuaiClient} {config : Config}
    (P : DialState → Prop)
    (hstep : ∀ e st st1, P st → dialEndpoint Dial config e st = .done st1 → P st1) :
    ∀ (es : List Endpoint) (st st1 : DialState), P st →
      dialAll Dial config es st = .done st1 → P st1 := by
  intro es
  induction es with
  | nil =>
    intro st st1 hP h
    simp only [dialAll, Outcome.done.injEq] at h
    subst h
    exact hP
  | cons e es ih =>
    intro st st1 hP h
    unfold dialAll at h
    obtain ⟨st2, h2, h3⟩ := Outcome.bind_done h
    exact ih st2 st1 (hstep e st st2 hP h2) h3

/-- The invariant of `connectToSlice`: the pool has the shape, and every endpoint marked
connected has a successful dial among the calls made. -/
theorem dialEndpoint_keeps {Dial : Nat → String → Option QuaiClient} {config : Config}
    (e : Endpoint) (st st1 : DialState)
    (hP : PoolShape st.clients ∧
      ∀ e1, connectedFlag st.clients e1 = some true → dialedOk st.log e1)
    (h : dialEndpoint Dial config e st = .done st1) :
    PoolShape st1.clients ∧
      ∀ e1, connectedFlag st1.clients e1 = some true → dialedOk st1.log e1 := by
  obtain ⟨hshape, hinv⟩ := hP
  obtain ⟨url, node, _, _, hcl, _, hlog⟩ := dialEndpoint_done h
  refine ⟨by rw [hcl]; exact setNode_shape _ _ _ hshape, ?_⟩
  intro e1 hf
  rcases dialEndpoint_flag_source h e1 hf with hold | hnew
  · obtain ⟨ev, hev, h1, h2⟩ := hinv e1 hold
    exact ⟨ev, by rw [hlog]; exact List.mem_append_left _ hev, h1, h2⟩
  · exact hnew

/-- The endpoints dialed by a list of dial statements, appended to the calls made. -/
theorem dialAll_log {Dial : Nat → String → Option QuaiClient} {config : Config} :
    ∀ (es : List Endpoint) (st st1 : DialState), dialAll Dial config es st = .done st1 →
      st1.log.map (fun ev => ev.endpoint) = st.log.map (fun ev => ev.endpoint) ++ es ∧
        st1.attempts = st.attempts + es.length := by
  intro es
  induction es with
  | nil =>
    intro st st1 h
    simp only [dialAll, Outcome.done.injEq] at h
    subst h
    simp
  | cons e es ih =>
    intro st st1 h
    unfold dialAll at h
    obtain ⟨st2, h2, h3⟩ := Outcome.bind_done h
    obtain ⟨_, _, _, _, _, hatt, hlog⟩ := dialEndpoint_done h2
    obtain ⟨hl, ha⟩ := ih st2 st1 h3
    rw [hl, ha, hlog, hatt]
    constructor
    · simp
    · simp only [List.length_cons]; omega

/-- The state at the top of every sweep keeps the invariant. -/
theorem sweepState_keeps {Dial : Nat → String → Option QuaiClient} {config : Config} :
    ∀ (k : Nat) (st : DialState), sweepState Dial config k = some st →
      PoolShape st.clients ∧
        ∀ e1, connectedFlag st.clients e1 = some true → dialedOk st.log e1 := by
  intro k
  induction k with
  | zero =>
    intro st h
    simp only [sweepState, Option.some.injEq] at h
    subst h
    exact ⟨NewSliceClients_spec.1, fun e1 hf => absurd hf (NewSliceClients_spec.2 e1)⟩
  | succ k ih =>
    intro st h
    unfold sweepState at h
    cases hk : sweepState Dial config k with
    | none => rw [hk] at h; cases h
    | some st0 =>
      rw [hk] at h
      simp only at h
      split at h
      · split at h
        · rename_i st1 hsw
          cases h
          exact dialAll_inv _ dialEndpoint_keeps sweepOrder st0 st (ih st0 hk) hsw
        · cases h
      · cases h

/-- A returning `connectToSlice` loop returns the state at the top of some sweep, at which
`allNodesConnected` is true. -/
theorem connectLoop_done {Dial : Nat → String → Option QuaiClient} {config : Config} :
    ∀ (fuel k : Nat) (st0 st : DialState), sweepState Dial config k = some st0 →
      connectLoop Dial config fuel st0 = .done st →
      allNodesConnected st.clients = some true ∧ ∃ k1, sweepState Dial config k1 = some st := by
  intro fuel
  induction fuel with
  | zero => intro k st0 st _ h; cases h
  | succ n ih =>
    intro k st0 st hk h
    unfold connectLoop at h
    cases hall : allNodesConnected st0.clients with
    | none => rw [hall] at h; cases h
    | some b =>
      rw [hall] at h
      cases b with
      | true =>
        simp only [Outcome.done.injEq] at h
        subst h
        exact ⟨hall, k, hk⟩
      | false =>
        simp only at h
        obtain ⟨st1, hsw, hrest⟩ := Outcome.bind_done h
        have hk1 : sweepState Dial config (k + 1) = some st1 := by
          show (match sweepState Dial config k with
            | none => none
            | some st =>
              match allNodesConnected st.clients with
              | some false =>
                match sweep Dial config st with
                | .done st1 => some st1
                | _ => none
              | _ => none) = some st1
          rw [hk]
          simp only [hall, hsw]
        exact ih (k + 1) st1 st hk1 hrest

/-- C12: on a client tree with 3 region entries and 3 by 3 zone entries,
`allNodesConnected` returns (it does not panic), and it returns true if and only if the
`Connected` flag of each of the 1 + 3 + 9 = 13 endpoints is true; otherwise it returns
false. -/
theorem fully_connected_iff (sc : SliceClients) (hr : sc.RegionClients.length = 3)
    (hz : sc.ZoneClients.length = 3) (hrows : ∀ row ∈ sc.ZoneClients, row.length = 3) :
    sweepOrder.length = 1 + 3 + 9 ∧
    ∃ b, allNodesConnected sc = some b ∧
      (b = true ↔ ∀ e ∈ sweepOrder, (getNode sc e).map (fun n => n.Connected) = some true) ∧
      (b = false ↔ ∃ e ∈ sweepOrder, (getNode sc e).map (fun n => n.Connected) ≠ some true) := by
  obtain ⟨b, hb, hiff⟩ := allNodesConnected_spec sc hr hz hrows
  refine ⟨rfl, b, hb, hiff, ?_⟩
  constructor
  · intro hfalse
    by_contra hno
    push_neg at hno
    have := hiff.mpr hno
    rw [hfalse] at this
    cases this
  · rintro ⟨e, he, hne⟩
    cases b with
    | false => rfl
    | true => exact absurd (hiff.mp rfl e he) hne

/-- Witness of C12: the tree whose every endpoint is connected. -/
theorem fully_connected_iff_witness :
    sweepOrder.length = 1 + 3 + 9 ∧
    ∃ b, allNodesConnected sixTree = some b ∧
      (b = true ↔
        ∀ e ∈ sweepOrder, (getNode sixTree e).map (fun n => n.Connected) = some true) ∧
      (b = false ↔
        ∃ e ∈ sweepOrder, (getNode sixTree e).map (fun n => n.Connected) ≠ some true) :=
  fully_connected_iff sixTree rfl rfl (by
    intro row hrow
    simp only [sixTree] at hrow
    rw [List.eq_of_mem_replicate hrow]
    rfl)

/-- C13: for every sequence of dial outcomes and every configuration, if `connectToSlice`
returns, then `allNodesConnected` is true on the returned pool and each of the 13
endpoints has a successful `Dial` among the calls made during the run; and at the top of
any sweep at which some endpoint has no successful `Dial` so far, `allNodesConnected` is
false, so that the loop does not return there. -/
theorem connect_returns_only_when_all_dialed (Dial : Nat → String → Option QuaiClient)
    (fuel : Nat) (config : Config) (st : DialState)
    (h : connectToSlice Dial fuel config = .done st) :
    allNodesConnected st.clients = some true ∧
    (∀ e ∈ sweepOrder, ∃ ev ∈ st.log, ev.endpoint = e ∧ ev.ok = true) ∧
    (∀ k stk, sweepState Dial config k = some stk →
      (∃ e ∈ sweepOrder, ∀ ev ∈ stk.log, ev.endpoint = e → ev.ok = false) →
      allNodesConnected stk.clients = some false) := by
  obtain ⟨hall, k1, hk1⟩ := connectLoop_done fuel 0 _ st rfl h
  obtain ⟨⟨hr, hz, hrows⟩, hinv⟩ := sweepState_keeps k1 st hk1
  obtain ⟨b, hb, hiff⟩ := allNodesConnected_spec st.clients hr hz hrows
  rw [hall] at hb
  cases hb
  refine ⟨hall, fun e he => hinv e (hiff.mp rfl e he), ?_⟩
  intro k stk hk ⟨e, he, hnone⟩
  obtain ⟨⟨hr1, hz1, hrows1⟩, hinv1⟩ := sweepState_keeps k stk hk
  obtain ⟨b1, hb1, hiff1⟩ := allNodesConnected_spec stk.clients hr1 hz1 hrows1
  cases b1 with
  | false => exact hb1
  | true =>
    obtain ⟨ev, hev, hend, hok⟩ := hinv1 e (hiff1.mp rfl e he)
    rw [hnone ev hev hend] at hok
    cases hok

/-- Witness of C13: the run in which the first dial of Region 0 and the second dial of
Prime fail returns at the top of the third sweep. -/
theorem connect_returns_only_when_all_dialed_witness :
    (connectToSlice flakyDial 3 sixConfig).toOption.map (fun st => st.attempts) = some 26 ∧
    ∃ st, connectToSlice flakyDial 3 sixConfig = .done st ∧
      allNodesConnected st.clients = some true ∧
      (∀ e ∈ sweepOrder, ∃ ev ∈ st.log, ev.endpoint = e ∧ ev.ok = true) ∧
      (∀ k stk, sweepState flakyDial sixConfig k = some stk →
        (∃ e ∈ sweepOrder, ∀ ev ∈ stk.log, ev.endpoint = e → ev.ok = false) →
        allNodesConnected stk.clients = some false) := by
  refine ⟨rfl, ?_⟩
  cases hrun : connectToSlice flakyDial 3 sixConfig with
  | done st =>
    exact ⟨st, rfl,
      connect_returns_only_when_all_dialed flakyDial 3 sixConfig st hrun⟩
  | crash =>
    have h : (connectToSlice flakyDial 3 sixConfig).toOption.map (fun st => st.attempts)
        = some 26 := rfl
    rw [hrun] at h
    cases h
  | timeout =>
    have h : (connectToSlice flakyDial 3 sixConfig).toOption.map (fun st => st.attempts)
        = some 26 := rfl
    rw [hrun] at h
    cases h

/-- C14, as stated, fails: with the dial outcomes `flakyDial`, call 0 dials Prime, which
was not marked connected, and succeeds; call 13, in the second sweep, dials Prime again
although Prime is marked connected. -/
theorem connected_endpoint_dialed_again :
    (connectToSlice flakyDial 3 sixConfig).toOption.map (fun st => st.log[0]?)
        = some (some ⟨.prime, false, true⟩) ∧
    (connectToSlice flakyDial 3 sixConfig).toOption.map (fun st => st.log[13]?)
        = some (some ⟨.prime, true, false⟩) := by
  constructor <;> rfl

/-- C19, at the failing input: with the dial outcomes `flakyDial` (the first dial of
Region 0 and the second dial of Prime fail) `connectToSlice` returns after two sweeps a
pool on which `allNodesConnected` is true and whose Prime entry is marked connected while
its client is `nil`; the propagation of `main` on that pool panics. -/
theorem connected_with_nil_client :
    (connectToSlice flakyDial 3 sixConfig).toOption.map
        (fun st => (st.attempts, allNodesConnected st.clients,
          st.clients.PrimeClient.Connected, st.clients.PrimeClient.Client.isSome))
      = some (26, some true, true, false) ∧
    (connectToSlice flakyDial 3 sixConfig).toOption.map
        (fun st => propagate 10 st.clients 5) = some .crash := by
  constructor <;> rfl

/-! ## Fuel, lookups and the client a call uses -/

/-- A loop that ended within its fuel ends the same way with more fuel. -/
theorem loop_fuel_mono {client : QuaiClient} {ctx : Int} :
    ∀ (fuel : Nat) (s : LoopState), (loop client ctx fuel s).result ≠ .timeout →
      ∀ k, loop client ctx (fuel + k) s = loop client ctx fuel s := by
  intro fuel
  induction fuel with
  | zero => intro s h; exact absurd rfl h
  | succ n ih =>
    intro s h k
    have hfuel : n + 1 + k = (n + k) + 1 := by omega
    rw [hfuel]
    unfold loop at h ⊢
    cases hb : loopBody client ctx s with
    | exit t => rfl
    | fault a => rfl
    | next s1 =>
      rw [hb] at h
      simp only at h ⊢
      exact ih s1 h k

/-- A call that ended within its fuel ends the same way with more fuel. -/
theorem GenerateTermini_fuel_mono {fuel : Nat} {sc : SliceClients} {ctx index : Int}
    {hash : common.Hash}
    (h : (GenerateTermini fuel sc ctx index hash).result ≠ .timeout) (k : Nat) :
    GenerateTermini (fuel + k) sc ctx index hash = GenerateTermini fuel sc ctx index hash := by
  unfold GenerateTermini at h ⊢
  cases hsel : selectClient sc ctx index with
  | none => rfl
  | some oc =>
    rw [hsel] at h
    simp only at h ⊢
    split
    · cases oc with
      | none => rfl
      | some client =>
        simp only at h ⊢
        cases henter : enterLoop client ctx hash with
        | none => rfl
        | some s =>
          rw [henter] at h
          rename_i hctx
          simp only [hctx, if_true] at h
          exact loop_fuel_mono fuel s h k
    · rfl

/-- A call depends on the pool only through the client it selects. -/
theorem GenerateTermini_congr (fuel : Nat) {sc1 sc2 : SliceClients} {ctx index : Int}
    (hash : common.Hash) (h : selectClient sc1 ctx index = selectClient sc2 ctx index) :
    GenerateTermini fuel sc1 ctx index hash = GenerateTermini fuel sc2 ctx index hash := by
  unfold GenerateTermini
  rw [h]

/-- Two returning calls that select the same client, on the same level and reference
hash, return the same vector after the same lookups, whatever their fuel. -/
theorem GenerateTermini_det {fuel1 fuel2 : Nat} {sc1 sc2 : SliceClients} {ctx index : Int}
    {hash : common.Hash} {t1 t2 : List common.Hash}
    (hsel : selectClient sc1 ctx index = selectClient sc2 ctx index)
    (h1 : (GenerateTermini fuel1 sc1 ctx index hash).result = .done t1)
    (h2 : (GenerateTermini fuel2 sc2 ctx index hash).result = .done t2) :
    t1 = t2 ∧ (GenerateTermini fuel1 sc1 ctx index hash).lookups
      = (GenerateTermini fuel2 sc2 ctx index hash).lookups := by
  have e1 := GenerateTermini_fuel_mono (by rw [h1]; simp) fuel2
  have e2 := GenerateTermini_fuel_mono (by rw [h2]; simp) fuel1
  have e3 : GenerateTermini (fuel1 + fuel2) sc1 ctx index hash
      = GenerateTermini (fuel2 + fuel1) sc2 ctx index hash := by
    rw [Nat.add_comm fuel2 fuel1]
    exact GenerateTermini_congr _ hash hsel
  have e4 : GenerateTermini fuel1 sc1 ctx index hash
      = GenerateTermini fuel2 sc2 ctx index hash := by
    rw [← e1, e3, e2]
  rw [e4, h2] at h1
  simp only [Outcome.done.injEq] at h1
  exact ⟨h1.symm, by rw [e4]⟩

/-- A loop that has looked up a hash for which there is no header has panicked. -/
theorem loop_failed_lookup {client : QuaiClient} {ctx : Int} :
    ∀ (fuel : Nat) (s : LoopState), (∀ x ∈ s.lookups, client.HeaderByHash x ≠ none) →
      ∀ x ∈ (loop client ctx fuel s).lookups, client.HeaderByHash x = none →
        (loop client ctx fuel s).result = .crash := by
  intro fuel
  induction fuel with
  | zero => intro s hs x hx hnone; exact absurd hnone (hs x hx)
  | succ n ih =>
    intro s hs x hx hnone
    unfold loop at hx ⊢
    cases hb : loopBody client ctx s with
    | exit t =>
      rw [hb] at hx
      exact absurd hnone (hs x hx)
    | fault a => rfl
    | next s1 =>
      rw [hb] at hx
      simp only at hx ⊢
      obtain ⟨_, _, hh, hl, _⟩ := loopBody_next hb
      refine ih s1 ?_ x hx hnone
      intro y hy
      rw [hl] at hy
      rcases List.mem_append.mp hy with hy | hy
      · exact hs y hy
      · rw [List.mem_singleton.mp hy, hh]
        simp

/-- A call at the Top or Region level that has looked up a hash for which its client has
no header has panicked. -/
theorem GenerateTermini_failed_lookup {fuel : Nat} {sc : SliceClients} {ctx index : Int}
    {hash : common.Hash} {client : QuaiClient}
    (hctx : ctx = common.PRIME_CTX ∨ ctx = common.REGION_CTX)
    (hsel : selectClient sc ctx index = some (some client)) :
    ∀ x ∈ (GenerateTermini fuel sc ctx index hash).lookups, client.HeaderByHash x = none →
      (GenerateTermini fuel sc ctx index hash).result = .crash := by
  intro x hx hnone
  cases henter : enterLoop client ctx hash with
  | none =>
    unfold GenerateTermini
    rw [hsel]
    simp [hctx, henter]
  | some s =>
    rw [GenerateTermini_loop fuel hctx hsel henter] at hx ⊢
    obtain ⟨hh, hl, _⟩ := enterLoop_some henter
    refine loop_failed_lookup fuel s ?_ x hx hnone
    intro y hy
    rw [hl] at hy
    rw [List.mem_singleton.mp hy, hh]
    simp

/-- The client that a Region-level call selects. -/
theorem selectClient_region (sc : SliceClients) (i : Nat) :
    selectClient sc 1 i = (sc.RegionClients[i]?).map (fun n => n.Client) := by
  have hneg : ¬ ((i : Int) < 0) := by omega
  simp [selectClient, common.PRIME_CTX, common.REGION_CTX, sliceAt, hneg]

/-- The client that a Top-level call selects. -/
theorem selectClient_prime (sc : SliceClients) (index : Int) :
    selectClient sc 0 index = some sc.PrimeClient.Client := by
  simp [selectClient, common.PRIME_CTX]

/-- A returning call at the Top or Region level found a header at every hash it looked
up. -/
theorem GenerateTermini_lookups_found {fuel : Nat} {sc : SliceClients} {ctx index : Int}
    {hash : common.Hash} {client : QuaiClient} {t : List common.Hash}
    (hctx : ctx = common.PRIME_CTX ∨ ctx = common.REGION_CTX)
    (hsel : selectClient sc ctx index = some (some client))
    (hret : (GenerateTermini fuel sc ctx index hash).result = .done t) :
    ∀ x ∈ (GenerateTermini fuel sc ctx index hash).lookups,
      (client.HeaderByHash x).isSome = true := by
  intro x hx
  cases hnone : client.HeaderByHash x with
  | some hd => rfl
  | none =>
    have := GenerateTermini_failed_lookup hctx hsel x hx hnone
    rw [hret] at this
    cases this

/-- C15: a header lookup that returns no result aborts the propagation. If the Top client
has no header for the bad hash, the propagation of `main` panics; a call of
`GenerateTermini` that has looked up a hash for which its client has no header has
panicked; and whenever the propagation completes with a result, every lookup it made had
returned a header: the bad header, every lookup of the Top walk, and for each region `i`
every lookup of the Region walk, the terminus header and the header at the next height,
and for each zone `j` of it the terminus header and the header at the next height. -/
theorem lookup_failure_aborts (fuel : Nat) (sc : SliceClients) (primeBadHash : common.Hash) :
    (∀ prime, sc.PrimeClient.Client = some prime →
      prime.HeaderByHash primeBadHash = none → propagate fuel sc primeBadHash = .crash) ∧
    (∀ (ctx index : Int) (hash : common.Hash) (client : QuaiClient),
      ctx = common.PRIME_CTX ∨ ctx = common.REGION_CTX →
      selectClient sc ctx index = some (some client) →
      ∀ x ∈ (GenerateTermini fuel sc ctx index hash).lookups,
        client.HeaderByHash x = none →
        (GenerateTermini fuel sc ctx index hash).result = .crash) ∧
    (∀ (rb : List common.Hash) (zb : List (List common.Hash)),
      propagate fuel sc primeBadHash = .done (rb, zb) →
      ∃ (prime : QuaiClient) (hdr : Header) (top : List common.Hash),
        sc.PrimeClient.Client = some prime ∧ prime.HeaderByHash primeBadHash = some hdr ∧
        (GenerateTermini fuel sc common.PRIME_CTX 0
          (hdr.ParentHash common.PRIME_CTX)).result = .done top ∧
        (∀ x ∈ (GenerateTermini fuel sc common.PRIME_CTX 0
            (hdr.ParentHash common.PRIME_CTX)).lookups,
          (prime.HeaderByHash x).isSome = true) ∧
        ∀ i : Nat, i < 3 →
          ∃ (rnode : NodeClient) (region : QuaiClient) (t : common.Hash)
            (rti : List common.Hash) (th nh : Header),
            sc.RegionClients[i]? = some rnode ∧ rnode.Client = some region ∧
            top[i]? = some t ∧
            (GenerateTermini fuel sc common.REGION_CTX i t).result = .done rti ∧
            (∀ x ∈ (GenerateTermini fuel sc common.REGION_CTX i t).lookups,
              (region.HeaderByHash x).isSome = true) ∧
            region.HeaderByHash t = some th ∧
            region.HeaderByNumber (heightArg (th.NumberU64 common.REGION_CTX)) = some nh ∧
            ∀ j : Nat, j < 3 →
              ∃ (row : List NodeClient) (znode : NodeClient) (zone : QuaiClient)
                (zt : common.Hash) (zh znh : Header),
                sc.ZoneClients[i]? = some row ∧ row[j]? = some znode ∧
                znode.Client = some zone ∧ rti[j]? = some zt ∧
                zone.HeaderByHash zt = some zh ∧
                zone.HeaderByNumber (heightArg (zh.NumberU64 common.ZONE_CTX)) = some znh) := by
  refine ⟨?_, ?_, ?_⟩
  · intro prime hprime hnone
    simp [propagate, mainTermini, hprime, hnone, orCrash, Outcome.bind]
  · intro ctx index hash client hctx hsel
    exact GenerateTermini_failed_lookup hctx hsel
  · intro rb zb h
    obtain ⟨top, rt, hterm, hrb, hzb⟩ := propagate_done h
    obtain ⟨prime, hdr, hprime, hhdr, htop, _, hrt⟩ := mainTermini_done hterm
    obtain ⟨_, hregions⟩ := mainRegionBadHashes_done hrb
    obtain ⟨_, hzones⟩ := mainZoneBadHashes_done hzb
    have hselp : selectClient sc common.PRIME_CTX 0 = some (some prime) := by
      rw [← hprime]
      exact selectClient_prime sc 0
    refine ⟨prime, hdr, top, hprime, hhdr, htop,
      GenerateTermini_lookups_found (Or.inl rfl) hselp htop, ?_⟩
    intro i hi
    obtain ⟨t, rti, ht, hrti, hrtidx⟩ := hrt i hi
    obtain ⟨rnode, t1, x, hrnode, ht1, hnext, _⟩ := hregions i hi
    rw [ht] at ht1
    cases ht1
    obtain ⟨region, th, nh, hc, hth, hnh, _⟩ := nextHash_some hnext
    have hselr : selectClient sc common.REGION_CTX i = some (some region) := by
      have := selectClient_region sc i
      rw [hrnode] at this
      simp only [Option.map_some', hc] at this
      exact this
    refine ⟨rnode, region, t, rti, th, nh, hrnode, hc, ht, hrti,
      GenerateTermini_lookups_found (Or.inr rfl) hselr hrti, hth, hnh, ?_⟩
    intro j hj
    obtain ⟨zrow, _, _, hcols⟩ := hzones i hi
    obtain ⟨row, znode, ts, zt, y, hrow, hznode, hts, hzt, hznext, _⟩ := hcols j hj
    rw [hrtidx] at hts
    cases hts
    obtain ⟨zone, zh, znh, hzc, hzh, hznh, _⟩ := nextHash_some hznext
    exact ⟨row, znode, zone, zt, zh, znh, hrow, hznode, hzc, hzt, hzh, hznh⟩

/-- Witness of C15: the Top client of `zeroTree` has no header for the hash 7, and the
propagation from 7 panics. -/
theorem lookup_failure_aborts_witness : propagate 10 zeroTree 7 = .crash :=
  (lookup_failure_aborts 10 zeroTree 7).1 zeroClient rfl rfl

/-- The hash after a terminus depends on the pool entry only through its client. -/
theorem nextHash_congr {node1 node2 : NodeClient} (ctx : Int) (t : common.Hash)
    (h : node1.Client = node2.Client) : nextHash node1 ctx t = nextHash node2 ctx t := by
  unfold nextHash
  rw [h]

/-- Two completed first stages on pools with the same Top client, from the same bad hash,
computed the same Top vector. -/
theorem mainTermini_top_det {fuel1 fuel2 : Nat} {sc1 sc2 : SliceClients}
    {primeBadHash : common.Hash} {top1 top2 : List common.Hash}
    {rt1 rt2 : List (List common.Hash)}
    (hprime : sc1.PrimeClient.Client = sc2.PrimeClient.Client)
    (h1 : mainTermini fuel1 sc1 primeBadHash = .done (top1, rt1))
    (h2 : mainTermini fuel2 sc2 primeBadHash = .done (top2, rt2)) : top1 = top2 := by
  obtain ⟨prime1, hdr1, hp1, hh1, ht1, _, _⟩ := mainTermini_done h1
  obtain ⟨prime2, hdr2, hp2, hh2, ht2, _, _⟩ := mainTermini_done h2
  rw [hprime, hp2] at hp1
  cases hp1
  rw [hh2] at hh1
  cases hh1
  have hsel : selectClient sc1 0 0 = selectClient sc2 0 0 := by
    rw [selectClient_prime, selectClient_prime, hprime]
  exact (GenerateTermini_det hsel ht1 ht2).1

/-- Two completed first stages on pools with the same Top client and the same Region
client `i` computed the same Region vector `i`. -/
theorem mainTermini_region_det {fuel1 fuel2 : Nat} {sc1 sc2 : SliceClients}
    {primeBadHash : common.Hash} {top1 top2 : List common.Hash}
    {rt1 rt2 : List (List common.Hash)}
    (hprime : sc1.PrimeClient.Client = sc2.PrimeClient.Client)
    (h1 : mainTermini fuel1 sc1 primeBadHash = .done (top1, rt1))
    (h2 : mainTermini fuel2 sc2 primeBadHash = .done (top2, rt2))
    (i : Nat) (hi : i < 3)
    (hregion : (sc1.RegionClients[i]?).map (fun n => n.Client)
      = (sc2.RegionClients[i]?).map (fun n => n.Client)) : rt1[i]? = rt2[i]? := by
  have htop := mainTermini_top_det hprime h1 h2
  subst htop
  obtain ⟨_, _, _, _, _, _, hr1⟩ := mainTermini_done h1
  obtain ⟨_, _, _, _, _, _, hr2⟩ := mainTermini_done h2
  obtain ⟨t1, ts1, ht1, hg1, hi1⟩ := hr1 i hi
  obtain ⟨t2, ts2, ht2, hg2, hi2⟩ := hr2 i hi
  rw [ht1] at ht2
  cases ht2
  have hsel : selectClient sc1 1 i = selectClient sc2 1 i := by
    rw [selectClient_region, selectClient_region, hregion]
  rw [hi1, hi2, (GenerateTermini_det hsel hg1 hg2).1]

/-- Two lists of three entries that agree at the indices 0, 1, 2 are equal. -/
theorem list3_ext {α : Type} {l1 l2 : List α} (h1 : l1.length = 3) (h2 : l2.length = 3)
    (h : ∀ i : Nat, i < 3 → l1[i]? = l2[i]?) : l1 = l2 := by
  apply List.ext_getElem?
  intro i
  by_cases hi : i < 3
  · exact h i hi
  · rw [List.getElem?_eq_none (by omega), List.getElem?_eq_none (by omega)]

/-- The entry `regionBadHashes[i]` depends on the pools only through the Top client and
Region client `i`. -/
theorem region_entry_det {fuel1 fuel2 : Nat} {sc1 sc2 : SliceClients}
    {primeBadHash : common.Hash} {rb1 rb2 : List common.Hash}
    {zb1 zb2 : List (List common.Hash)}
    (p1 : propagate fuel1 sc1 primeBadHash = .done (rb1, zb1))
    (p2 : propagate fuel2 sc2 primeBadHash = .done (rb2, zb2))
    (hprime : sc1.PrimeClient.Client = sc2.PrimeClient.Client)
    (i : Nat) (hi : i < 3)
    (hregion : (sc1.RegionClients[i]?).map (fun n => n.Client)
      = (sc2.RegionClients[i]?).map (fun n => n.Client)) : rb1[i]? = rb2[i]? := by
  obtain ⟨top1, rt1, hterm1, hrb1, _⟩ := propagate_done p1
  obtain ⟨top2, rt2, hterm2, hrb2, _⟩ := propagate_done p2
  have htop := mainTermini_top_det hprime hterm1 hterm2
  subst htop
  obtain ⟨_, hreg1⟩ := mainRegionBadHashes_done hrb1
  obtain ⟨_, hreg2⟩ := mainRegionBadHashes_done hrb2
  obtain ⟨node1, t1, x1, hn1, ht1, hx1, hidx1⟩ := hreg1 i hi
  obtain ⟨node2, t2, x2, hn2, ht2, hx2, hidx2⟩ := hreg2 i hi
  rw [ht1] at ht2
  cases ht2
  rw [hn1, hn2] at hregion
  simp only [Option.map_some', Option.some.injEq] at hregion
  rw [nextHash_congr _ _ hregion, hx2] at hx1
  cases hx1
  rw [hidx1, hidx2]

/-- The entry `zoneBadHashes[i][j]` depends on the pools only through the Top client,
Region client `i` and Zone client `[i][j]`. -/
theorem zone_entry_det {fuel1 fuel2 : Nat} {sc1 sc2 : SliceClients}
    {primeBadHash : common.Hash} {rb1 rb2 : List common.Hash}
    {zb1 zb2 : List (List common.Hash)}
    (p1 : propagate fuel1 sc1 primeBadHash = .done (rb1, zb1))
    (p2 : propagate fuel2 sc2 primeBadHash = .done (rb2, zb2))
    (hprime : sc1.PrimeClient.Client = sc2.PrimeClient.Client)
    (i : Nat) (hi : i < 3)
    (hregion : (sc1.RegionClients[i]?).map (fun n => n.Client)
      = (sc2.RegionClients[i]?).map (fun n => n.Client))
    (j : Nat) (hj : j < 3)
    (hzone : (sc1.ZoneClients[i]?.bind (fun row => row[j]?)).map (fun n => n.Client)
      = (sc2.ZoneClients[i]?.bind (fun row => row[j]?)).map (fun n => n.Client)) :
    zb1[i]?.bind (fun zrow => zrow[j]?) = zb2[i]?.bind (fun zrow => zrow[j]?) := by
  obtain ⟨top1, rt1, hterm1, _, hzb1⟩ := propagate_done p1
  obtain ⟨top2, rt2, hterm2, _, hzb2⟩ := propagate_done p2
  have hrt := mainTermini_region_det hprime hterm1 hterm2 i hi hregion
  obtain ⟨_, hz1⟩ := mainZoneBadHashes_done hzb1
  obtain ⟨_, hz2⟩ := mainZoneBadHashes_done hzb2
  obtain ⟨zrow1, hzr1, _, hc1⟩ := hz1 i hi
  obtain ⟨zrow2, hzr2, _, hc2⟩ := hz2 i hi
  obtain ⟨row1, node1, ts1, t1, x1, hrow1, hnode1, hts1, ht1, hx1, hidx1⟩ := hc1 j hj
  obtain ⟨row2, node2, ts2, t2, x2, hrow2, hnode2, hts2, ht2, hx2, hidx2⟩ := hc2 j hj
  rw [hts1, hts2] at hrt
  cases hrt
  rw [ht1] at ht2
  cases ht2
  rw [hrow1, hrow2] at hzone
  simp only [Option.some_bind, hnode1, hnode2, Option.map_some', Option.some.injEq] at hzone
  rw [nextHash_congr _ _ hzone, hx2] at hx1
  cases hx1
  rw [hzr1, hzr2]
  simp only [Option.some_bind, hidx1, hidx2]

/-- C16: for two client trees on which the propagation of `main` completes from the same
bad hash, whatever the fuel, and which have the same Top client and the same Region
client `i`, `regionBadHashes[i]` is the same in both runs; and if they also have the same
Zone client `[i][j]`, `zoneBadHashes[i][j]` is the same. -/
theorem sibling_independence (fuel1 fuel2 : Nat) (sc1 sc2 : SliceClients)
    (primeBadHash : common.Hash) (rb1 rb2 : List common.Hash)
    (zb1 zb2 : List (List common.Hash))
    (p1 : propagate fuel1 sc1 primeBadHash = .done (rb1, zb1))
    (p2 : propagate fuel2 sc2 primeBadHash = .done (rb2, zb2))
    (hprime : sc1.PrimeClient.Client = sc2.PrimeClient.Client)
    (i : Nat) (hi : i < 3)
    (hregion : (sc1.RegionClients[i]?).map (fun n => n.Client)
      = (sc2.RegionClients[i]?).map (fun n => n.Client)) :
    rb1[i]? = rb2[i]? ∧
    ∀ j : Nat, j < 3 →
      (sc1.ZoneClients[i]?.bind (fun row => row[j]?)).map (fun n => n.Client)
        = (sc2.ZoneClients[i]?.bind (fun row => row[j]?)).map (fun n => n.Client) →
      zb1[i]?.bind (fun zrow => zrow[j]?) = zb2[i]?.bind (fun zrow => zrow[j]?) :=
  ⟨region_entry_det p1 p2 hprime i hi hregion,
    fun j hj hzone => zone_entry_det p1 p2 hprime i hi hregion j hj hzone⟩

/-- Witness of C16: `sixTree` and `altTree` agree on the Top client, Region client 0 and
Zone client [0][0], and differ elsewhere. -/
theorem sibling_independence_witness :
    propagate 10 sixTree 5 = .done ([4, 5, 3], [[4, 1, 1], [5, 1, 1], [3, 1, 1]]) ∧
    propagate 7 altTree 5 = .done ([4, 2, 2], [[4, 2, 2], [2, 2, 2], [2, 2, 2]]) ∧
    [4, 5, 3][0]? = [4, 2, 2][0]? ∧
    ∀ j : Nat, j < 3 →
      (sixTree.ZoneClients[0]?.bind (fun row => row[j]?)).map (fun n => n.Client)
        = (altTree.ZoneClients[0]?.bind (fun row => row[j]?)).map (fun n => n.Client) →
      [[4, 1, 1], [5, 1, 1], [3, 1, 1]][0]?.bind (fun zrow => zrow[j]?)
        = [[4, 2, 2], [2, 2, 2], [2, 2, 2]][0]?.bind (fun zrow => zrow[j]?) :=
  ⟨rfl, rfl,
    sibling_independence 10 7 sixTree altTree 5 [4, 5, 3] [4, 2, 2]
      [[4, 1, 1], [5, 1, 1], [3, 1, 1]] [[4, 2, 2], [2, 2, 2], [2, 2, 2]] rfl rfl rfl 0
      (by decide) rfl⟩

/-- C17: on a fixed client tree, two calls of `GenerateTermini` with the same level,
index and reference hash that return, whatever their fuel, return the same vector after
the same lookups; and two runs of the propagation of `main` from the same bad hash that
complete, whatever their fuel, yield the same `regionBadHashes` and `zoneBadHashes`. -/
theorem propagation_deterministic (sc : SliceClients) (fuel1 fuel2 : Nat) :
    (∀ (ctx index : Int) (hash : common.Hash) (t1 t2 : List common.Hash),
      (GenerateTermini fuel1 sc ctx index hash).result = .done t1 →
      (GenerateTermini fuel2 sc ctx index hash).result = .done t2 →
      t1 = t2 ∧ (GenerateTermini fuel1 sc ctx index hash).lookups
        = (GenerateTermini fuel2 sc ctx index hash).lookups) ∧
    (∀ (primeBadHash : common.Hash) (r1 r2 : List common.Hash × List (List common.Hash)),
      propagate fuel1 sc primeBadHash = .done r1 →
      propagate fuel2 sc primeBadHash = .done r2 → r1 = r2) := by
  constructor
  · intro ctx index hash t1 t2 h1 h2
    exact GenerateTermini_det rfl h1 h2
  · rintro primeBadHash ⟨rb1, zb1⟩ ⟨rb2, zb2⟩ p1 p2
    obtain ⟨top1, rt1, hterm1, hrb1, hzb1⟩ := propagate_done p1
    obtain ⟨top2, rt2, hterm2, hrb2, hzb2⟩ := propagate_done p2
    have htop := mainTermini_top_det rfl hterm1 hterm2
    subst htop
    obtain ⟨_, _, _, _, _, hl1, _⟩ := mainTermini_done hterm1
    obtain ⟨_, _, _, _, _, hl2, _⟩ := mainTermini_done hterm2
    have hrt : rt1 = rt2 :=
      list3_ext hl1 hl2 (fun i hi => mainTermini_region_det rfl hterm1 hterm2 i hi rfl)
    subst hrt
    rw [hrb2] at hrb1
    rw [hzb2] at hzb1
    simp only [Outcome.done.injEq] at hrb1 hzb1
    rw [hrb1, hzb1]

/-- Witness of C17: the walk from block 4 and the propagation from block 5 on `sixTree`,
with fuel 10 and with fuel 7. -/
theorem propagation_deterministic_witness :
    ([3, 4, 2, 4] = ([3, 4, 2, 4] : List common.Hash) ∧
      (GenerateTermini 10 sixTree 0 0 4).lookups = (GenerateTermini 7 sixTree 0 0 4).lookups) ∧
    (([4, 5, 3], [[4, 1, 1], [5, 1, 1], [3, 1, 1]])
      = (([4, 5, 3], [[4, 1, 1], [5, 1, 1], [3, 1, 1]]) :
          List common.Hash × List (List common.Hash))) :=
  ⟨(propagation_deterministic sixTree 10 7).1 0 0 4 [3, 4, 2, 4] [3, 4, 2, 4] rfl rfl,
    (propagation_deterministic sixTree 10 7).2 5 _ _ rfl rfl⟩

/-- C18, as stated, fails: on the six-block chain, for the non-zero reference hash 4 whose
header has Top location index 1, the vector before the first parent lookup is
`[0, 4, 0, 4]`: slot 1 holds the reference hash, and so does slot 3, which is another
slot and is not empty. -/
theorem entry_state_slot3_filled :
    (enterLoop sixClient 0 4).map
        (fun s => (s.termini, s.lookups, sliceAt s.parent.Location 0))
      = some ([0, 4, 0, 4], [4], some 1) ∧
    [0, 4, 0, 4][3]? = some (4 : common.Hash) ∧ (4 : common.Hash) ≠ 0 ∧ (3 : Nat) ≠ 1 := by
  refine ⟨rfl, rfl, by decide, by decide⟩

/-- C18, amended: at the Top or Region level, for a reference hash whose header has
location index `l` in [0,3), the loop is entered after the single lookup of the reference
hash with a four-entry vector in which slot `l` and slot 3 hold the reference hash and
the other two branch slots are empty. -/
theorem state_before_first_step (sc : SliceClients) (ctx index : Int) (hash : common.Hash)
    (client : QuaiClient) (hd : Header) (l : Nat)
    (hctx : ctx = common.PRIME_CTX ∨ ctx = common.REGION_CTX)
    (hsel : selectClient sc ctx index = some (some client))
    (hh : client.HeaderByHash hash = some hd)
    (hl : sliceAt hd.Location ctx = some l) (hlt : l < 3) :
    ∃ s, walkState client ctx hash 0 = some s ∧
      (∀ fuel, GenerateTermini fuel sc ctx index hash = loop client ctx fuel s) ∧
      s.lookups = [hash] ∧ s.termini.length = 4 ∧
      s.termini[l]? = some hash ∧ s.termini[3]? = some hash ∧
      ∀ j : Nat, j < 3 → j ≠ l → s.termini[j]? = some 0 := by
  have henter : enterLoop client ctx hash
      = some ⟨((List.replicate 4 0).set 3 hash).set l hash, hd, [hash]⟩ := by
    unfold enterLoop
    have hl4 : l < 4 := by omega
    simp [hh, hl, hl4]
  refine ⟨_, ?_, fun fuel => GenerateTermini_loop fuel hctx hsel henter, rfl, by simp,
    ?_, ?_, ?_⟩
  · unfold walkState
    rw [henter]
    rfl
  · show (((List.replicate 4 0).set 3 hash).set l hash)[l]? = some hash
    interval_cases l <;> simp [List.replicate]
  · show (((List.replicate 4 0).set 3 hash).set l hash)[3]? = some hash
    interval_cases l <;> simp [List.replicate]
  · intro j hj hne
    show (((List.replicate 4 0).set 3 hash).set l hash)[j]? = some 0
    rw [List.getElem?_set_ne (fun hEq => hne hEq.symm)]
    interval_cases j <;> simp [List.replicate]

/-- Witness of C18 (amended): the walk from block 4 of the six-block chain, on branch 1. -/
theorem state_before_first_step_witness :
    ∃ s, walkState sixClient 0 4 0 = some s ∧
      (∀ fuel, GenerateTermini fuel sixTree 0 0 4 = loop sixClient 0 fuel s) ∧
      s.lookups = [4] ∧ s.termini.length = 4 ∧
      s.termini[1]? = some 4 ∧ s.termini[3]? = some 4 ∧
      ∀ j : Nat, j < 3 → j ≠ 1 → s.termini[j]? = some 0 :=
  state_before_first_step sixTree 0 0 4 sixClient (mkHeader 4 3 4 [1, 0]) 1 (Or.inl rfl) rfl
    rfl rfl (by decide)

/-! ## The height argument -/

/-- The upper-case text of a hexadecimal digit reads back as the digit. -/
theorem hexDigitValue_upper (d : Nat) (hd : d < 16) :
    hexDigitValue (Char.toUpper (Nat.digitChar d)) = some d := by
  interval_cases d <;> rfl

/-- The upper-case text of a non-zero hexadecimal digit is not the character zero. -/
theorem upper_digit_ne_zero (d : Nat) (hpos : 0 < d) (hd : d < 16) :
    Char.toUpper (Nat.digitChar d) ≠ '0' := by
  interval_cases d <;> decide

/-- Reading the upper-case digits of `n`, written in front of `ds`, amounts to reading
`ds` onto `n`. -/
theorem parseHexFrom_toDigitsCore :
    ∀ (fuel n : Nat) (ds : List Char), n < fuel →
      parseHexFrom 0 ((Nat.toDigitsCore 16 fuel n ds).map Char.toUpper)
        = parseHexFrom n (ds.map Char.toUpper) := by
  intro fuel
  induction fuel with
  | zero => intro n ds h; omega
  | succ f ih =>
    intro n ds h
    simp only [Nat.toDigitsCore]
    by_cases h0 : n / 16 = 0
    · have hn : n < 16 := by omega
      simp only [h0, if_true, List.map_cons, parseHexFrom]
      rw [hexDigitValue_upper _ (Nat.mod_lt n (by decide))]
      simp only [Nat.zero_mul, Nat.zero_add, Nat.mod_eq_of_lt hn]
    · simp only [h0, if_false]
      rw [ih (n / 16) _ (by omega)]
      simp only [List.map_cons, parseHexFrom]
      rw [hexDigitValue_upper _ (Nat.mod_lt n (by decide))]
      simp only [Nat.div_add_mod' n 16]

/-- The digits of a positive number start with a non-zero digit. -/
theorem toDigitsCore_head :
    ∀ (fuel n : Nat) (ds : List Char), n < fuel → 0 < n →
      ∃ d rest, 0 < d ∧ d < 16 ∧ Nat.toDigitsCore 16 fuel n ds = Nat.digitChar d :: rest := by
  intro fuel
  induction fuel with
  | zero => intro n ds h; omega
  | succ f ih =>
    intro n ds h hpos
    simp only [Nat.toDigitsCore]
    by_cases h0 : n / 16 = 0
    · have hn : n < 16 := by omega
      simp only [h0, if_true]
      exact ⟨n % 16, ds, by rw [Nat.mod_eq_of_lt hn]; exact hpos, Nat.mod_lt n (by decide), rfl⟩
    · simp only [h0, if_false]
      exact ih (n / 16) _ (by omega) (Nat.pos_of_ne_zero h0)

/-- The characters of the height argument: `0x`, then the upper-case digits. -/
theorem heightArg_toList (n : Nat) :
    (heightArg n).toList
      = '0' :: 'x' :: (sprintfHex ((n + 1) % 2 ^ 64)).map Char.toUpper := by
  simp [heightArg, String.toList]

/-- The upper-case digits of `m` read back as `m`, and have no leading zero. -/
theorem upper_digits_spec (m : Nat) :
    parseHexUpper ((sprintfHex m).map Char.toUpper) = some m ∧
      ((sprintfHex m).map Char.toUpper = ['0'] ∨
        ((sprintfHex m).map Char.toUpper).head? ≠ some '0') := by
  by_cases hm : m = 0
  · subst hm
    exact ⟨rfl, Or.inl rfl⟩
  · have hpos : 0 < m := Nat.pos_of_ne_zero hm
    obtain ⟨d, rest, hd0, hd16, hcore⟩ := toDigitsCore_head (m + 1) m [] (by omega) hpos
    have hparse := parseHexFrom_toDigitsCore (m + 1) m [] (by omega)
    have hdig : sprintfHex m = Nat.digitChar d :: rest := hcore
    constructor
    · unfold parseHexUpper
      rw [if_neg (by rw [hdig]; simp)]
      exact hparse
    · right
      rw [hdig]
      simp only [List.map_cons, List.head?_cons, ne_eq, Option.some.injEq]
      exact upper_digit_ne_zero d hd0 hd16

/-- C20: for every terminus number `n`, the height argument passed to `HeaderByNumber` is
`0x` followed by upper-case hexadecimal digits, without a leading zero unless they are
the single digit `0`, that read in base 16 as `(n + 1) mod 2^64`; so for
`n < 2^64 - 1` the digits read as `n + 1`, and for `n = 2^64 - 1` the argument is `0x0`. -/
theorem height_argument_encoding (n : Nat) :
    (heightArg n).toList.take 2 = ['0', 'x'] ∧
    parseHexUpper ((heightArg n).toList.drop 2) = some ((n + 1) % 2 ^ 64) ∧
    ((heightArg n).toList.drop 2 = ['0'] ∨
      ((heightArg n).toList.drop 2).head? ≠ some '0') ∧
    (n < 2 ^ 64 - 1 → parseHexUpper ((heightArg n).toList.drop 2) = some (n + 1)) ∧
    (n = 2 ^ 64 - 1 → heightArg n = "0x0") := by
  have hdrop : (heightArg n).toList.drop 2
      = (sprintfHex ((n + 1) % 2 ^ 64)).map Char.toUpper := by
    rw [heightArg_toList]
    rfl
  obtain ⟨hparse, hlead⟩ := upper_digits_spec ((n + 1) % 2 ^ 64)
  refine ⟨by rw [heightArg_toList]; rfl, by rw [hdrop]; exact hparse,
    by rw [hdrop]; exact hlead, ?_, ?_⟩
  · intro hn
    rw [hdrop, hparse, Nat.mod_eq_of_lt (by omega)]
  · intro hn
    subst hn
    rfl

/-- Witness of C20: for the terminus number 254 the argument is `0xFF`, which reads as
255. -/
theorem height_argument_encoding_witness :
    heightArg 254 = "0xFF" ∧ parseHexUpper ((heightArg 254).toList.drop 2) = some (254 + 1) :=
  ⟨rfl, (height_argument_encoding 254).2.2.2.1 (by norm_num)⟩

/-! ## The height asked for, and the client of a walk -/

/-- The text of a height reads back, in base 16, as the height. -/
theorem heightText_parse (m : Nat) :
    parseHexUpper ((heightText m).toList.drop 2) = some m := by
  have hdrop : (heightText m).toList.drop 2 = (sprintfHex m).map Char.toUpper := by
    simp [heightText, String.toList]
  rw [hdrop]
  exact (upper_digits_spec m).1

/-- The header returned for the height argument of the terminus number `n` is the header
at height `(n + 1) mod 2^64`: at height `n + 1` below the wrap, at height 0 at the wrap. -/
theorem height_asked {client : QuaiClient} {n : Nat} {next : Header}
    (h : client.HeaderByNumber (heightArg n) = some next) :
    client.HeaderByNumber (heightText ((n + 1) % 2 ^ 64)) = some next ∧
    parseHexUpper ((heightText ((n + 1) % 2 ^ 64)).toList.drop 2) = some ((n + 1) % 2 ^ 64) ∧
    (n < 2 ^ 64 - 1 → client.HeaderByNumber (heightText (n + 1)) = some next) ∧
    (n = 2 ^ 64 - 1 → client.HeaderByNumber (heightText 0) = some next) := by
  have h1 : client.HeaderByNumber (heightText ((n + 1) % 2 ^ 64)) = some next := h
  refine ⟨h1, heightText_parse _, ?_, ?_⟩
  · intro hn
    rw [Nat.mod_eq_of_lt (by omega)] at h1
    exact h1
  · intro hn
    have hz : (n + 1) % 2 ^ 64 = 0 := by
      rw [hn]
      norm_num
    rw [hz] at h1
    exact h1

/-- A returning call at the Top or Region level is the loop run on the store of the
client that the call selects, entered at the reference hash. -/
theorem GenerateTermini_is_loop {fuel : Nat} {sc : SliceClients} {ctx index : Int}
    {hash : common.Hash} {client : QuaiClient} {t : List common.Hash}
    (hctx : ctx = common.PRIME_CTX ∨ ctx = common.REGION_CTX)
    (hsel : selectClient sc ctx index = some (some client))
    (hret : (GenerateTermini fuel sc ctx index hash).result = .done t) :
    ∃ s, enterLoop client ctx hash = some s ∧
      GenerateTermini fuel sc ctx index hash = loop client ctx fuel s := by
  obtain ⟨client1, s, hsel1, henter, hrun⟩ := GenerateTermini_enter hctx hret
  rw [hsel] at hsel1
  cases hsel1
  exact ⟨s, henter, hrun⟩

/-- C10, as stated, fails: on `wrapTree` the propagation from block 5 completes; Region
client 0 returns for `topTermini[0]`, the hash 3, a header whose Region-level number `n`
is `2^64 - 1`, and for the height `n + 1 = 2^64` a header of hash 222; but
`regionBadHashes[0]` is 111, the hash of the header at height 0. -/
theorem region_height_wraps :
    propagate 10 wrapTree 5
      = .done ([111, 111, 111], [[111, 111, 111], [111, 111, 111], [111, 111, 111]]) ∧
    (GenerateTermini 10 wrapTree common.PRIME_CTX 0 4).result = .done [3, 4, 2, 4] ∧
    (wrapClient.HeaderByHash 3).map (fun b => b.NumberU64 common.REGION_CTX)
      = some (2 ^ 64 - 1) ∧
    (wrapClient.HeaderByNumber (heightText (2 ^ 64 - 1 + 1))).map (fun b => b.Hash)
      = some 222 ∧
    (wrapClient.HeaderByNumber (heightText 0)).map (fun b => b.Hash) = some 111 ∧
    [111, 111, 111][0]? ≠ some (222 : common.Hash) := by
  refine ⟨rfl, rfl, rfl, rfl, rfl, by decide⟩

/-- C10, amended: whenever the propagation of `main` completes, for every region index
`i` in [0,3), `regionBadHashes[i]` is the hash of the header that Region client `i`
returns for the height `(n + 1) mod 2^64`, which is `n + 1` for `n < 2^64 - 1` and 0 for
`n = 2^64 - 1`, where `n` is the Region-level number of the header that Region client `i`
returns for the hash `topTermini[i]`, and `topTermini` is the result of `GenerateTermini`
at the Top level, which is the walk on the store of the Top client, from the Top-level
parent hash of the header that the Top client returns for the bad hash. -/
theorem region_bad_hash (fuel : Nat) (sc : SliceClients) (primeBadHash : common.Hash)
    (regionBadHashes : List common.Hash) (zoneBadHashes : List (List common.Hash))
    (h : propagate fuel sc primeBadHash = .done (regionBadHashes, zoneBadHashes))
    (i : Nat) (hi : i < 3) :
    ∃ (prime : QuaiClient) (primeBadHeader : Header) (s0 : LoopState)
      (topTermini : List common.Hash) (node : NodeClient) (region : QuaiClient)
      (t : common.Hash) (terminus next : Header),
      sc.PrimeClient.Client = some prime ∧
      prime.HeaderByHash primeBadHash = some primeBadHeader ∧
      enterLoop prime common.PRIME_CTX (primeBadHeader.ParentHash common.PRIME_CTX)
        = some s0 ∧
      GenerateTermini fuel sc common.PRIME_CTX 0 (primeBadHeader.ParentHash common.PRIME_CTX)
        = loop prime common.PRIME_CTX fuel s0 ∧
      (loop prime common.PRIME_CTX fuel s0).result = .done topTermini ∧
      topTermini[i]? = some t ∧
      sc.RegionClients[i]? = some node ∧ node.Client = some region ∧
      region.HeaderByHash t = some terminus ∧
      region.HeaderByNumber
        (heightText ((terminus.NumberU64 common.REGION_CTX + 1) % 2 ^ 64)) = some next ∧
      parseHexUpper
        ((heightText ((terminus.NumberU64 common.REGION_CTX + 1) % 2 ^ 64)).toList.drop 2)
        = some ((terminus.NumberU64 common.REGION_CTX + 1) % 2 ^ 64) ∧
      (terminus.NumberU64 common.REGION_CTX < 2 ^ 64 - 1 →
        region.HeaderByNumber (heightText (terminus.NumberU64 common.REGION_CTX + 1))
          = some next) ∧
      (terminus.NumberU64 common.REGION_CTX = 2 ^ 64 - 1 →
        region.HeaderByNumber (heightText 0) = some next) ∧
      regionBadHashes[i]? = some next.Hash := by
  obtain ⟨top, rt, hterm, hrb, _⟩ := propagate_done h
  obtain ⟨prime, hdr, hprime, hhdr, htop, _, _⟩ := mainTermini_done hterm
  have hselp : selectClient sc common.PRIME_CTX 0 = some (some prime) := by
    rw [← hprime]
    exact selectClient_prime sc 0
  obtain ⟨s0, henter, hrun⟩ := GenerateTermini_is_loop (Or.inl rfl) hselp htop
  obtain ⟨_, hregions⟩ := mainRegionBadHashes_done hrb
  obtain ⟨node, t, x, hnode, ht, hnext, hidx⟩ := hregions i hi
  obtain ⟨region, th, nh, hc, hth, hnh, hx⟩ := nextHash_some hnext
  subst hx
  obtain ⟨a1, a2, a3, a4⟩ := height_asked hnh
  have htop1 : (loop prime common.PRIME_CTX fuel s0).result = .done top := by
    have hcopy := htop
    rw [show GenerateTermini fuel sc 0 0 (hdr.ParentHash common.PRIME_CTX)
      = loop prime common.PRIME_CTX fuel s0 from hrun] at hcopy
    exact hcopy
  exact ⟨prime, hdr, s0, top, node, region, t, th, nh, hprime, hhdr, henter, hrun, htop1, ht,
    hnode, hc, hth, a1, a2, a3, a4, hidx⟩

/-- Witness of C10 (amended): the propagation from block 5 on the tree whose every
endpoint serves the six blocks; for region 0 the terminus is block 3 and the bad hash is
block 4. -/
theorem region_bad_hash_witness :
    propagate 10 sixTree 5 = .done ([4, 5, 3], [[4, 1, 1], [5, 1, 1], [3, 1, 1]]) ∧
    ∃ (prime : QuaiClient) (primeBadHeader : Header) (s0 : LoopState)
      (topTermini : List common.Hash) (node : NodeClient) (region : QuaiClient)
      (t : common.Hash) (terminus next : Header),
      sixTree.PrimeClient.Client = some prime ∧
      prime.HeaderByHash 5 = some primeBadHeader ∧
      enterLoop prime common.PRIME_CTX (primeBadHeader.ParentHash common.PRIME_CTX)
        = some s0 ∧
      GenerateTermini 10 sixTree common.PRIME_CTX 0
          (primeBadHeader.ParentHash common.PRIME_CTX)
        = loop prime common.PRIME_CTX 10 s0 ∧
      (loop prime common.PRIME_CTX 10 s0).result = .done topTermini ∧
      topTermini[0]? = some t ∧
      sixTree.RegionClients[0]? = some node ∧ node.Client = some region ∧
      region.HeaderByHash t = some terminus ∧
      region.HeaderByNumber
        (heightText ((terminus.NumberU64 common.REGION_CTX + 1) % 2 ^ 64)) = some next ∧
      parseHexUpper
        ((heightText ((terminus.NumberU64 common.REGION_CTX + 1) % 2 ^ 64)).toList.drop 2)
        = some ((terminus.NumberU64 common.REGION_CTX + 1) % 2 ^ 64) ∧
      (terminus.NumberU64 common.REGION_CTX < 2 ^ 64 - 1 →
        region.HeaderByNumber (heightText (terminus.NumberU64 common.REGION_CTX + 1))
          = some next) ∧
      (terminus.NumberU64 common.REGION_CTX = 2 ^ 64 - 1 →
        region.HeaderByNumber (heightText 0) = some next) ∧
      [4, 5, 3][0]? = some next.Hash :=
  ⟨rfl, region_bad_hash 10 sixTree 5 [4, 5, 3] [[4, 1, 1], [5, 1, 1], [3, 1, 1]] rfl 0
    (by decide)⟩

/-- C11, as stated, fails: on `wrapTree` the propagation from block 5 completes;
`regionTermini[0]`, the Region walk of index 0 from `topTermini[0] = 3`, has slot 0 equal
to 3; Zone client [0][0] returns for that hash a header whose Zone-level number `m` is
`2^64 - 1`, and for the height `m + 1 = 2^64` a header of hash 222; but
`zoneBadHashes[0][0]` is 111, the hash of the header at height 0. -/
theorem zone_height_wraps :
    propagate 10 wrapTree 5
      = .done ([111, 111, 111], [[111, 111, 111], [111, 111, 111], [111, 111, 111]]) ∧
    (GenerateTermini 10 wrapTree common.PRIME_CTX 0 4).result = .done [3, 4, 2, 4] ∧
    (GenerateTermini 10 wrapTree common.REGION_CTX 0 3).result
      = .done [3, GenesisHash, GenesisHash, 3] ∧
    (wrapClient.HeaderByHash 3).map (fun b => b.NumberU64 common.ZONE_CTX)
      = some (2 ^ 64 - 1) ∧
    (wrapClient.HeaderByNumber (heightText (2 ^ 64 - 1 + 1))).map (fun b => b.Hash)
      = some 222 ∧
    [[111, 111, 111], [111, 111, 111], [111, 111, 111]][0]?.bind (fun zrow => zrow[0]?)
      ≠ some (222 : common.Hash) := by
  refine ⟨rfl, rfl, rfl, rfl, rfl, by decide⟩

/-- C11, amended: whenever the propagation of `main` completes, `regionBadHashes` has 3
entries and `zoneBadHashes` has 3 rows of 3 entries, and for every region index `i` and
zone index `j` in [0,3), `zoneBadHashes[i][j]` is the hash of the header that Zone client
`[i][j]` returns for the height `(m + 1) mod 2^64`, which is `m + 1` for `m < 2^64 - 1`
and 0 for `m = 2^64 - 1`, where `m` is the Zone-level number of the header that Zone
client `[i][j]` returns for the hash `regionTermini[i][j]`, and `regionTermini[i]` is the
result of `GenerateTermini` at the Region level, index `i`, on `topTermini[i]`, which is
the walk on the store of Region client `i`. -/
theorem zone_bad_hash (fuel : Nat) (sc : SliceClients) (primeBadHash : common.Hash)
    (regionBadHashes : List common.Hash) (zoneBadHashes : List (List common.Hash))
    (h : propagate fuel sc primeBadHash = .done (regionBadHashes, zoneBadHashes))
    (i j : Nat) (hi : i < 3) (hj : j < 3) :
    regionBadHashes.length = 3 ∧ zoneBadHashes.length = 3 ∧
    (∀ zrow ∈ zoneBadHashes, zrow.length = 3) ∧
    ∃ (prime : QuaiClient) (primeBadHeader : Header) (topTermini : List common.Hash)
      (t : common.Hash) (rnode : NodeClient) (region : QuaiClient) (s : LoopState)
      (regionTermini : List common.Hash) (zt : common.Hash)
      (row : List NodeClient) (node : NodeClient) (zone : QuaiClient)
      (terminus next : Header) (zrow : List common.Hash),
      sc.PrimeClient.Client = some prime ∧
      prime.HeaderByHash primeBadHash = some primeBadHeader ∧
      (GenerateTermini fuel sc common.PRIME_CTX 0
        (primeBadHeader.ParentHash common.PRIME_CTX)).result = .done topTermini ∧
      topTermini[i]? = some t ∧
      sc.RegionClients[i]? = some rnode ∧ rnode.Client = some region ∧
      enterLoop region common.REGION_CTX t = some s ∧
      GenerateTermini fuel sc common.REGION_CTX i t = loop region common.REGION_CTX fuel s ∧
      (loop region common.REGION_CTX fuel s).result = .done regionTermini ∧
      regionTermini[j]? = some zt ∧
      sc.ZoneClients[i]? = some row ∧ row[j]? = some node ∧ node.Client = some zone ∧
      zone.HeaderByHash zt = some terminus ∧
      zone.HeaderByNumber
        (heightText ((terminus.NumberU64 common.ZONE_CTX + 1) % 2 ^ 64)) = some next ∧
      parseHexUpper
        ((heightText ((terminus.NumberU64 common.ZONE_CTX + 1) % 2 ^ 64)).toList.drop 2)
        = some ((terminus.NumberU64 common.ZONE_CTX + 1) % 2 ^ 64) ∧
      (terminus.NumberU64 common.ZONE_CTX < 2 ^ 64 - 1 →
        zone.HeaderByNumber (heightText (terminus.NumberU64 common.ZONE_CTX + 1))
          = some next) ∧
      (terminus.NumberU64 common.ZONE_CTX = 2 ^ 64 - 1 →
        zone.HeaderByNumber (heightText 0) = some next) ∧
      zoneBadHashes[i]? = some zrow ∧ zrow[j]? = some next.Hash := by
  obtain ⟨top, rt, hterm, hrb, hzb⟩ := propagate_done h
  obtain ⟨prime, hdr, hprime, hhdr, htop, _, hrt⟩ := mainTermini_done hterm
  obtain ⟨hrblen, hregions⟩ := mainRegionBadHashes_done hrb
  obtain ⟨hzblen, hzrows⟩ := mainZoneBadHashes_done hzb
  refine ⟨hrblen, hzblen, ?_, ?_⟩
  · intro zrow hmem
    obtain ⟨k, hk⟩ := List.getElem?_of_mem hmem
    have hk3 : k < 3 := by
      by_contra hge
      rw [List.getElem?_eq_none (by omega)] at hk
      cases hk
    obtain ⟨zrow1, hz1, hlen1, _⟩ := hzrows k hk3
    rw [hk] at hz1
    cases hz1
    exact hlen1
  · obtain ⟨t, ts, ht, hts, hrti⟩ := hrt i hi
    obtain ⟨rnode, t1, x1, hrnode, ht1, hrnext, _⟩ := hregions i hi
    obtain ⟨region, _, _, hrc, _, _, _⟩ := nextHash_some hrnext
    have hselr : selectClient sc common.REGION_CTX i = some (some region) := by
      have := selectClient_region sc i
      rw [hrnode] at this
      simp only [Option.map_some', hrc] at this
      exact this
    obtain ⟨s, henter, hrun⟩ := GenerateTermini_is_loop (Or.inr rfl) hselr hts
    have hts1 : (loop region common.REGION_CTX fuel s).result = .done ts := by
      have hcopy := hts
      rw [show GenerateTermini fuel sc 1 i t = loop region common.REGION_CTX fuel s
        from hrun] at hcopy
      exact hcopy
    obtain ⟨zrow, hzrow, _, hcols⟩ := hzrows i hi
    obtain ⟨row, node, ts2, zt, x, hrow, hnode, hts2, hzt, hnext, hx⟩ := hcols j hj
    rw [hrti] at hts2
    cases hts2
    obtain ⟨zone, th, nh, hc, hth, hnh, hxe⟩ := nextHash_some hnext
    subst hxe
    obtain ⟨a1, a2, a3, a4⟩ := height_asked hnh
    exact ⟨prime, hdr, top, t, rnode, region, s, ts, zt, row, node, zone, th, nh, zrow,
      hprime, hhdr, htop, ht, hrnode, hrc, henter, hrun, hts1, hzt, hrow, hnode, hc, hth,
      a1, a2, a3, a4, hzrow, hx⟩

/-- Witness of C11 (amended): the propagation from block 5 on the tree whose every
endpoint serves the six blocks, for region 0 and zone 1. -/
theorem zone_bad_hash_witness :
    propagate 10 sixTree 5 = .done ([4, 5, 3], [[4, 1, 1], [5, 1, 1], [3, 1, 1]]) ∧
    [4, 5, 3].length = 3 ∧ [[4, 1, 1], [5, 1, 1], [3, 1, 1]].length = 3 ∧
    (∀ zrow ∈ [[4, 1, 1], [5, 1, 1], [3, 1, 1]], zrow.length = 3) ∧
    ∃ (prime : QuaiClient) (primeBadHeader : Header) (topTermini : List common.Hash)
      (t : common.Hash) (rnode : NodeClient) (region : QuaiClient) (s : LoopState)
      (regionTermini : List common.Hash) (zt : common.Hash)
      (row : List NodeClient) (node : NodeClient) (zone : QuaiClient)
      (terminus next : Header) (zrow : List common.Hash),
      sixTree.PrimeClient.Client = some prime ∧
      prime.HeaderByHash 5 = some primeBadHeader ∧
      (GenerateTermini 10 sixTree common.PRIME_CTX 0
        (primeBadHeader.ParentHash common.PRIME_CTX)).result = .done topTermini ∧
      topTermini[0]? = some t ∧
      sixTree.RegionClients[0]? = some rnode ∧ rnode.Client = some region ∧
      enterLoop region common.REGION_CTX t = some s ∧
      GenerateTermini 10 sixTree common.REGION_CTX (0 : Nat) t
        = loop region common.REGION_CTX 10 s ∧
      (loop region common.REGION_CTX 10 s).result = .done regionTermini ∧
      regionTermini[1]? = some zt ∧
      sixTree.ZoneClients[0]? = some row ∧ row[1]? = some node ∧ node.Client = some zone ∧
      zone.HeaderByHash zt = some terminus ∧
      zone.HeaderByNumber
        (heightText ((terminus.NumberU64 common.ZONE_CTX + 1) % 2 ^ 64)) = some next ∧
      parseHexUpper
        ((heightText ((terminus.NumberU64 common.ZONE_CTX + 1) % 2 ^ 64)).toList.drop 2)
        = some ((terminus.NumberU64 common.ZONE_CTX + 1) % 2 ^ 64) ∧
      (terminus.NumberU64 common.ZONE_CTX < 2 ^ 64 - 1 →
        zone.HeaderByNumber (heightText (terminus.NumberU64 common.ZONE_CTX + 1))
          = some next) ∧
      (terminus.NumberU64 common.ZONE_CTX = 2 ^ 64 - 1 →
        zone.HeaderByNumber (heightText 0) = some next) ∧
      [[4, 1, 1], [5, 1, 1], [3, 1, 1]][0]? = some zrow ∧ zrow[1]? = some next.Hash :=
  ⟨rfl, zone_bad_hash 10 sixTree 5 [4, 5, 3] [[4, 1, 1], [5, 1, 1], [3, 1, 1]] rfl 0 1
    (by decide) (by decide)⟩

/-! ## The sweeps of connectToSlice -/

/-- The calls that a list of dial statements adds to the log: one for each endpoint, in
order, each recording the flag that the endpoint had before the list was run. -/
theorem dialAll_events {Dial : Nat → String → Option QuaiClient} {config : Config} :
    ∀ (es : List Endpoint) (st st1 : DialState), dialAll Dial config es st = .done st1 →
      ∃ evs : List DialEvent, st1.log = st.log ++ evs ∧
        evs.map (fun ev => ev.endpoint) = es ∧
        ∀ e ∈ es, ∀ b, connectedFlag st.clients e = some b →
          ∃ ok, (⟨e, b, ok⟩ : DialEvent) ∈ evs := by
  intro es
  induction es with
  | nil =>
    intro st st1 h
    simp only [dialAll, Outcome.done.injEq] at h
    subst h
    exact ⟨[], by simp, rfl, fun e he => absurd he (List.not_mem_nil e)⟩
  | cons e0 es ih =>
    intro st st1 h
    unfold dialAll at h
    obtain ⟨st2, h2, h3⟩ := Outcome.bind_done h
    obtain ⟨url, node, _, hnode, hcl, _, hlog⟩ := dialEndpoint_done h2
    obtain ⟨evs, hevs, hmap, hall⟩ := ih st2 st1 h3
    refine ⟨⟨e0, node.Connected, (Dial st.attempts url).isSome⟩ :: evs, ?_, ?_, ?_⟩
    · rw [hevs, hlog]
      simp
    · simp [hmap]
    · intro e he b hb
      by_cases hEq : e = e0
      · subst hEq
        unfold connectedFlag at hb
        rw [hnode] at hb
        simp only [Option.map_some', Option.some.injEq] at hb
        subst hb
        exact ⟨(Dial st.attempts url).isSome, List.mem_cons_self _ _⟩
      · have hmem : e ∈ es := by
          rcases List.mem_cons.mp he with h0 | h0
          · exact absurd h0 hEq
          · exact h0
        have hflag : connectedFlag st2.clients e = some b := by
          unfold connectedFlag at hb ⊢
          rw [hcl, getNode_setNode_ne _ _ _ _ hEq]
          exact hb
        obtain ⟨ok, hok⟩ := hall e hmem b hflag
        exact ⟨ok, List.mem_cons_of_mem _ hok⟩

/-- The loop of `connectToSlice`, run from the start, is the loop run from the top of any
sweep it gets to, with the fuel that is left. -/
theorem connectLoop_sweepState {Dial : Nat → String → Option QuaiClient} {config : Config} :
    ∀ (k : Nat) (st : DialState), sweepState Dial config k = some st →
      ∀ n, connectLoop Dial config (k + n) ⟨NewSliceClients, 0, []⟩
        = connectLoop Dial config n st := by
  intro k
  induction k with
  | zero =>
    intro st h n
    simp only [sweepState, Option.some.injEq] at h
    subst h
    simp
  | succ k ih =>
    intro st h n
    unfold sweepState at h
    cases hk : sweepState Dial config k with
    | none => rw [hk] at h; cases h
    | some st0 =>
      rw [hk] at h
      simp only at h
      cases hall : allNodesConnected st0.clients with
      | none => rw [hall] at h; cases h
      | some b =>
        rw [hall] at h
        cases b with
        | true => cases h
        | false =>
          simp only at h
          cases hsw : sweep Dial config st0 with
          | crash => rw [hsw] at h; cases h
          | timeout => rw [hsw] at h; cases h
          | done st1 =>
            rw [hsw] at h
            simp only [Option.some.injEq] at h
            subst h
            have hfuel : k + 1 + n = k + (n + 1) := by omega
            rw [hfuel, ih st0 hk (n + 1)]
            show (match allNodesConnected st0.clients with
              | none => Outcome.crash
              | some true => Outcome.done st0
              | some false => (sweep Dial config st0).bind (connectLoop Dial config n)) = _
            rw [hall]
            simp only [hsw, Outcome.bind]

/-- At the top of every sweep before the one the loop has got to, not all endpoints were
marked connected. -/
theorem sweepState_before {Dial : Nat → String → Option QuaiClient} {config : Config} :
    ∀ (k : Nat) (st : DialState), sweepState Dial config k = some st →
      ∀ j, j < k → ∃ stj, sweepState Dial config j = some stj ∧
        allNodesConnected stj.clients = some false := by
  intro k
  induction k with
  | zero => intro st _ j hj; omega
  | succ k ih =>
    intro st h j hj
    unfold sweepState at h
    cases hk : sweepState Dial config k with
    | none => rw [hk] at h; cases h
    | some st0 =>
      rw [hk] at h
      simp only at h
      cases hall : allNodesConnected st0.clients with
      | none => rw [hall] at h; cases h
      | some b =>
        rw [hall] at h
        cases b with
        | true => cases h
        | false =>
          rcases Nat.lt_succ_iff_lt_or_eq.mp hj with hlt | hEq
          · exact ih st0 hk j hlt
          · subst hEq
            exact ⟨st0, hk, hall⟩

/-- C14, amended: every sweep of `connectToSlice` that completes makes one connection
attempt for each of the 13 endpoints, in the order Prime, then for each region the region
and its zones, whether or not the endpoint is marked connected: an endpoint that is marked
connected at the top of the sweep is dialed in it all the same; an endpoint that is
marked connected before the sweep is marked connected after it; and the loop ends at the
top of the first sweep at which all endpoints are marked: there `connectToSlice` returns
the pool as it is, while at the top of a sweep at which not all are marked it sweeps
again. -/
theorem sweep_dials_every_endpoint (Dial : Nat → String → Option QuaiClient)
    (config : Config) :
    (∀ st st1, sweep Dial config st = .done st1 →
      (∃ evs : List DialEvent, st1.log = st.log ++ evs ∧
        evs.map (fun ev => ev.endpoint) = sweepOrder ∧
        ∀ e ∈ sweepOrder, ∀ b, connectedFlag st.clients e = some b →
          ∃ ok, (⟨e, b, ok⟩ : DialEvent) ∈ evs) ∧
      st1.attempts = st.attempts + 13 ∧
      ∀ e, connectedFlag st.clients e = some true →
        connectedFlag st1.clients e = some true) ∧
    (∀ k st, sweepState Dial config k = some st →
      (∀ j, j < k → ∃ stj, sweepState Dial config j = some stj ∧
        allNodesConnected stj.clients = some false) ∧
      (allNodesConnected st.clients = some true →
        ∀ fuel, k < fuel → connectToSlice Dial fuel config = .done st) ∧
      (allNodesConnected st.clients = some false →
        ∀ fuel, connectToSlice Dial (k + (fuel + 1)) config
          = (sweep Dial config st).bind (connectLoop Dial config fuel))) := by
  constructor
  · intro st st1 h
    refine ⟨dialAll_events sweepOrder st st1 h, (dialAll_log sweepOrder st st1 h).2, ?_⟩
    exact dialAll_inv
      (fun s => ∀ e, connectedFlag st.clients e = some true →
        connectedFlag s.clients e = some true)
      (fun e s s1 hP hd e1 hf => dialEndpoint_flag_mono hd e1 (hP e1 hf))
      sweepOrder st st1 (fun _ hf => hf) h
  · intro k st hk
    refine ⟨sweepState_before k st hk, ?_, ?_⟩
    · intro hall fuel hfuel
      obtain ⟨n, rfl⟩ : ∃ n, fuel = k + (n + 1) := ⟨fuel - k - 1, by omega⟩
      unfold connectToSlice
      rw [connectLoop_sweepState k st hk (n + 1)]
      show (match allNodesConnected st.clients with
        | none => Outcome.crash
        | some true => Outcome.done st
        | some false => (sweep Dial config st).bind (connectLoop Dial config n)) = _
      rw [hall]
    · intro hall fuel
      unfold connectToSlice
      rw [connectLoop_sweepState k st hk (fuel + 1)]
      show (match allNodesConnected st.clients with
        | none => Outcome.crash
        | some true => Outcome.done st
        | some false => (sweep Dial config st).bind (connectLoop Dial config fuel)) = _
      rw [hall]

/-- Witness of C14 (amended): the second sweep of the run with the dial outcomes
`flakyDial`. At its top Prime is marked connected and not all endpoints are; the sweep
dials Prime again; at the top of the next sweep all endpoints are marked and
`connectToSlice` returns. -/
theorem sweep_dials_every_endpoint_witness :
    ∃ st st1, sweepState flakyDial sixConfig 1 = some st ∧
      connectedFlag st.clients .prime = some true ∧
      allNodesConnected st.clients = some false ∧
      sweep flakyDial sixConfig st = .done st1 ∧
      ((∃ evs : List DialEvent, st1.log = st.log ++ evs ∧
          evs.map (fun ev => ev.endpoint) = sweepOrder ∧
          ∀ e ∈ sweepOrder, ∀ b, connectedFlag st.clients e = some b →
            ∃ ok, (⟨e, b, ok⟩ : DialEvent) ∈ evs) ∧
        st1.attempts = st.attempts + 13 ∧
        ∀ e, connectedFlag st.clients e = some true →
          connectedFlag st1.clients e = some true) ∧
      sweepState flakyDial sixConfig 2 = some st1 ∧
      allNodesConnected st1.clients = some true ∧
      connectToSlice flakyDial 3 sixConfig = .done st1 := by
  have e1 : (sweepState flakyDial sixConfig 1).map
      (fun st => (connectedFlag st.clients .prime, allNodesConnected st.clients))
      = some (some true, some false) := rfl
  have e2 : ((sweepState flakyDial sixConfig 1).bind
      (fun st => (sweep flakyDial sixConfig st).toOption)).map
      (fun st => allNodesConnected st.clients) = some (some true) := rfl
  cases h1 : sweepState flakyDial sixConfig 1 with
  | none => rw [h1] at e1; cases e1
  | some st =>
    rw [h1] at e1 e2
    simp only [Option.map_some', Option.some.injEq, Prod.mk.injEq] at e1
    obtain ⟨hflag, hnot⟩ := e1
    simp only [Option.some_bind] at e2
    cases h2 : sweep flakyDial sixConfig st with
    | crash => rw [h2] at e2; cases e2
    | timeout => rw [h2] at e2; cases e2
    | done st1 =>
      rw [h2] at e2
      simp only [Outcome.toOption, Option.map_some', Option.some.injEq] at e2
      have hs2 : sweepState flakyDial sixConfig 2 = some st1 := by
        show (match sweepState flakyDial sixConfig 1 with
          | none => none
          | some st =>
            match allNodesConnected st.clients with
            | some false =>
              match sweep flakyDial sixConfig st with
              | .done st1 => some st1
              | _ => none
            | _ => none) = some st1
        rw [h1]
        simp only [hnot, h2]
      exact ⟨st, st1, rfl, hflag, hnot, h2,
        (sweep_dials_every_endpoint flakyDial sixConfig).1 st st1 h2, hs2, e2,
        ((sweep_dials_every_endpoint flakyDial sixConfig).2 2 st1 hs2).2.1 e2 3
          (by decide)⟩

end QuaiHelper
